import Mathlib

/-!
Verification of the GeoPro place-matching core against its specification.

This file gives a shallow embedding, in Lean 4, of the core functions of the
GeoPro repository (`geopro/functions/places_feature_matching.py`,
`geopro/functions/osm_fitting.py`, `geopro/config.py`) and proves the spec
claims about them.

Modelling conventions:
* Python lists become Lean `List`s, dict-shaped records become structures.
* Python `float` arithmetic is modelled over `ℚ`; `round(x, n)` is modelled
  as round-half-to-even at `n` decimal digits, which is the documented
  behaviour of Python's `round`.
* The haversine distance (floating-point trigonometry) is kept abstract: the
  functions that consume it take the distance function as a parameter, so all
  theorems hold for the real haversine as well.
* Functions that raise become `Except String` / `Option`-valued; an exception
  caught by a Python handler is matched on explicitly at the catch site.
* Effectful code (HTTP requests, file writes, UI callbacks) is modelled by a
  deterministic interpreter over an explicit environment of oracles, emitting
  a trace of effects.
-/

namespace GeoPro

/-! ## Word tokenization and name overlap (osm_fitting.name_overlap_score) -/

/-- A word character in the sense of the regex class used by `re.split(r"\W+", ...)`:
alphanumeric or underscore. -/
def isWordChar (c : Char) : Bool :=
  c.isAlphanum || c = '_'

/-- The tokens produced by `re.split(r"\W+", name)`, dropping empty tokens:
the maximal runs of word characters of `name`.  (Python's `re.split` also
yields empty strings at the ends; those are removed by the length filter in
`name_overlap_score` either way, so we drop them here.) -/
def splitWords (name : String) : List (List Char) :=
  (name.toList.splitOnP (fun c => !(isWordChar c))).filter (· ≠ [])

/-- The inner `normalize` of `name_overlap_score`: the set of lower-cased
tokens of length greater than 2. -/
def normalizeName (name : String) : Finset String :=
  (((splitWords name).filter (fun w => 2 < w.length)).map
    (fun w => String.mk (w.map Char.toLower))).toFinset

/-- `osm_fitting.name_overlap_score`: Jaccard similarity of the two normalized
token sets; `0.0` when either set is empty. -/
def name_overlap_score (name_a name_b : String) : ℚ :=
  let set_a := normalizeName name_a
  let set_b := normalizeName name_b
  if set_a = ∅ ∨ set_b = ∅ then 0
  else ((set_a ∩ set_b).card : ℚ) / ((set_a ∪ set_b).card : ℚ)

/-! ## OSM tags and MapCSS rules (places_feature_matching) -/

/-- `places_feature_matching.OsmTag`; Python `__eq__` compares key and value. -/
structure OsmTag where
  key : String
  value : String
deriving DecidableEq, Repr

/-- `places_feature_matching.MapcssRule`. -/
structure MapcssRule where
  m_tags : List OsmTag := []
  m_mandatoryKeys : List String := []
  m_forbiddenKeys : List String := []
deriving DecidableEq, Repr

/-- `MapcssRule.matches`: all required tags present, all mandatory keys
present with value other than "no", forbidden keys absent unless value "no". -/
def MapcssRule.matches (rule : MapcssRule) (tags : List OsmTag) : Bool :=
  rule.m_tags.all (fun tag => tags.any (fun t => t = tag)) &&
  rule.m_mandatoryKeys.all (fun key => tags.any (fun t => t.key = key && t.value ≠ "no")) &&
  rule.m_forbiddenKeys.all (fun key => tags.all (fun t => t.key ≠ key || t.value = "no"))

/-! ## Longest-type reduction (places_feature_matching.leave_longest_types) -/

/-- The inner `equal_prefix` of `leave_longest_types`: the first
`min(2, min(len lhs, len rhs))` components agree. -/
def prefixEq (lhs rhs : List String) : Bool :=
  let prefixSize := min lhs.length rhs.length
  let compareLen := min 2 prefixSize
  decide (lhs.take compareLen = rhs.take compareLen)

/-- The inner `for existing in result` scan of `leave_longest_types`, with the
Python `break` on a longer equal-prefix entry.  Returns the `keep` flag and
the `to_remove` list accumulated up to the break point. -/
def scanExisting (t : List String) : List (List String) → Bool × List (List String)
  | [] => (true, [])
  | e :: rest =>
    if prefixEq t e then
      if e.length < t.length then
        let r := scanExisting t rest
        (r.1, e :: r.2)
      else if t.length < e.length then
        (false, [])
      else
        scanExisting t rest
    else
      scanExisting t rest

/-- One outer-loop step of `leave_longest_types`: scan the current `result`
against the new entry `t`, then (if kept) remove the collected shorter
entries (Python `list.remove`, first occurrence) and append `t`. -/
def insertType (result : List (List String)) (t : List String) : List (List String) :=
  let s := scanExisting t result
  if s.1 then (s.2.foldl (fun acc r => acc.erase r) result) ++ [t] else result

/-- `places_feature_matching.leave_longest_types`. -/
def leave_longest_types (matched_types : List (List String)) : List (List String) :=
  matched_types.foldl insertType []

/-- `places_feature_matching.convert_list_to_feature_types`: dash-join every
token path, then deduplicate (Python builds a `set`; we keep `dedup` which
removes duplicates, the order of a Python set being unspecified). -/
def convert_list_to_feature_types (feature_list : List (List String)) : List String :=
  ((feature_list.map (fun features => String.intercalate "-" features))).dedup

/-! ## MapCSS ruleset parsing (places_feature_matching.parse_mapcss)

The Python code reads the resource through `csv.reader(f, delimiter=";",
skipinitialspace=True)`.  We model a row as the semicolon-split fields of one
line, with whitespace immediately following a delimiter removed
(`skipinitialspace`); CSV quoting is not used by the resource format and is
not modelled.  A `ValueError` raise becomes an `Except.error`. -/

/-- Python `s.split(sep)` for a single-character separator, implemented
structurally over the character list (every split in `parse_mapcss` uses a
one-character separator). -/
def pySplitOnChar (sep : Char) (s : String) : List String :=
  (s.toList.splitOnP (fun c => c = sep)).map String.mk

/-- Python `str.strip()`: remove leading and trailing whitespace. -/
def pyStrip (s : String) : String :=
  String.mk ((s.toList.dropWhile Char.isWhitespace).reverse.dropWhile
    Char.isWhitespace).reverse

/-- Python `s.startswith(c)` for a one-character prefix. -/
def strStartsWithChar (s : String) (c : Char) : Bool :=
  match s.toList with
  | [] => false
  | x :: _ => x = c

/-- Python `s.endswith(c)` for a one-character suffix. -/
def strEndsWithChar (s : String) (c : Char) : Bool :=
  match s.toList.getLast? with
  | some x => x = c
  | none => false

/-- The fields `csv.reader` yields for one input line. -/
def csvFields (line : String) : List String :=
  if line = "" then []
  else
    match pySplitOnChar ';' line with
    | [] => []
    | f :: rest => f :: rest.map (fun s => String.mk (s.toList.dropWhile (· = ' ')))

/-- Python `str.strip("?!")`: remove leading and trailing `?`/`!` characters. -/
def stripQuestExcl (s : String) : String :=
  String.mk (((s.toList.dropWhile (fun c => c = '?' || c = '!')).reverse.dropWhile
    (fun c => c = '?' || c = '!')).reverse)

/-- One entry of the parsed ruleset: type tokens plus a rule. -/
abbrev MapcssEntry := List String × MapcssRule

/-- The body of the `for kv in inner_parts` loop of `process_full`: classify a
single selector token as mandatory/forbidden key or `key=value` tag. -/
def parseKvToken (rule : MapcssRule) (kv : String) : Except String MapcssRule :=
  match pySplitOnChar '=' kv with
  | [rawKey] =>
    let forbidden := strStartsWithChar rawKey '!'
    let key := stripQuestExcl rawKey
    if forbidden then
      .ok { rule with m_forbiddenKeys := rule.m_forbiddenKeys ++ [key] }
    else
      .ok { rule with m_mandatoryKeys := rule.m_mandatoryKeys ++ [key] }
  | [key, value] =>
    .ok { rule with m_tags := rule.m_tags ++ [⟨key, value⟩] }
  | _ => .error ("Invalid tag format in selector: " ++ kv)

/-- `re.split(r'[\[\]]', selector)` followed by the filter dropping empty
fragments: the bracket-free fragments of the selector. -/
def innerParts (selector : String) : List String :=
  ((selector.toList.splitOnP (fun c => c = '[' || c = ']')).filter (· ≠ [])).map String.mk

/-- The body of the `for selector in selectors_string.split(",")` loop of
`process_full`: `none` when the stripped selector is empty (skipped),
otherwise the rule built from its tokens. -/
def parseSelector (type_tokens : List String) (selRaw : String) :
    Except String (Option MapcssEntry) :=
  let selector := pyStrip selRaw
  if selector = "" then .ok none
  else if !(strStartsWithChar selector '[' && strEndsWithChar selector ']') then
    .error ("Invalid selector format: " ++ selector)
  else do
    let rule ← (innerParts selector).foldlM parseKvToken {}
    return some (type_tokens, rule)

/-- `parse_mapcss.process_short`: 3-field short rule form. -/
def process_short (type_string : String) : Except String MapcssEntry :=
  match pySplitOnChar '|' type_string with
  | [k, v] => .ok ([k, v], { m_tags := [⟨k, v⟩] })
  | _ => .error ("Invalid short type string: " ++ type_string)

/-- `parse_mapcss.process_full`: 7-field full rule form, expanding the
comma-separated selector list into one rule per selector. -/
def process_full (type_string selectors_string : String) :
    Except String (List MapcssEntry) :=
  if type_string = "" || selectors_string = "" then
    .error "Empty type string or selectors string"
  else
    let type_tokens := pySplitOnChar '|' type_string
    (pySplitOnChar ',' selectors_string).foldlM
      (fun acc sel => do
        match ← parseSelector type_tokens sel with
        | none => return acc
        | some entry => return acc ++ [entry])
      []

/-- Sequence two fallible rule-list producers, concatenating their results
(the sequential processing of the short and full rule forms of one line). -/
def exceptSeq {α : Type} (a b : Except String (List α)) : Except String (List α) := do
  let xs ← a
  let ys ← b
  return xs ++ ys

/-- The rules contributed by a single input line of `parse_mapcss` (empty list
when the line is skipped). -/
def parseLine (line : String) : Except String (List MapcssEntry) :=
  match csvFields line with
  | [] => .ok []
  | f0 :: rest =>
    let fields := f0 :: rest
    let firstField := pyStrip f0
    if firstField = "" || strStartsWithChar firstField '#' then .ok []
    else if fields.length ≠ 3 ∧ fields.length ≠ 7 then
      .error "Unexpected number of fields"
    else
      exceptSeq
        (if fields.length = 3 ∧ fields.getD 2 "" = "" then
          (process_short (fields.getD 0 "")).map (fun r => [r])
         else .ok [])
        (if fields.length = 7 ∧ fields.getD 2 "" ≠ "x" then
          process_full (fields.getD 0 "") (fields.getD 1 "")
         else .ok [])

/-- `places_feature_matching.parse_mapcss` over the lines of the resource. -/
def parse_mapcss (lines : List String) : Except String (List MapcssEntry) :=
  lines.foldlM (fun acc line => (parseLine line).map (fun rs => acc ++ rs)) []

/-! ## Search radii (config.RANGES) and radius commands
(osm_fitting.OSMMatcher.set_radius_from_string) -/

/-- `config.RANGES`. -/
def RANGES : List ℚ := [10, 30, 100, 1000, 5000]

/-- `config.DEFAULT_RANGE`. -/
def DEFAULT_RANGE : ℚ := 10

/-- `config.Commands`. -/
def ZOOM_IN : String := "zoom-in"

def ZOOM_OUT : String := "zoom-out"

def EXIT_CMD : String := "exit"

/-- Python `list.index`: position of the first occurrence, `ValueError` when
absent (which `set_radius_from_string` does not catch). -/
def pyListIndex (l : List ℚ) (x : ℚ) : Except String ℕ :=
  match l.findIdx? (· = x) with
  | some i => .ok i
  | none => .error "ValueError: x not in list"

/-- Python list subscription `l[i]`, including negative indices counting from
the end; `none` models an `IndexError`. -/
def pySubscript (l : List ℚ) (i : ℤ) : Option ℚ :=
  if 0 ≤ i then l.get? i.toNat
  else if i.natAbs ≤ l.length then l.get? (l.length - i.natAbs)
  else none

/-- `OSMMatcher.set_radius_from_string`.  Result: `ok (continueFlag, newRange)`
where `continueFlag = false` only for the exit command; `error` models the
uncaught `ValueError` from `RANGES.index` when the current range is not in
`RANGES`.  The `except IndexError` handler of the source corresponds to the
`none` branches of `pySubscript`; the guarded `self.range = DEFAULT_RANGE`
assignments before the subscript are dead on the success path because the
subscript assignment overwrites them. -/
def set_radius_from_string (range : ℚ) (input_str : String) :
    Except String (Bool × ℚ) :=
  if input_str = ZOOM_OUT then do
    let idx ← pyListIndex RANGES range
    let newIndex : ℤ := (idx : ℤ) + 1
    match pySubscript RANGES newIndex with
    | some r => return (true, r)
    | none => return (true, DEFAULT_RANGE)
  else if input_str = ZOOM_IN then do
    let idx ← pyListIndex RANGES range
    let newIndex : ℤ := (idx : ℤ) - 1
    match pySubscript RANGES newIndex with
    | some r => return (true, r)
    | none => return (true, DEFAULT_RANGE)
  else if input_str = EXIT_CMD then
    return (false, range)
  else
    return (true, DEFAULT_RANGE)

/-! ## Remote candidate queries (osm_fitting.OSMMatcher.overpass_request)

The HTTP layer is abstracted into an oracle giving, for each attempt number,
the observable classification of what the request produced.  This matches the
branch structure of the `try`/`except` block of `overpass_request`. -/

/-- Classification of one Overpass attempt, as observed by the code. -/
inductive OverpassOutcome where
  /-- 200 response with a JSON content type: `response.json()` is returned. -/
  | success (data : ℕ)
  /-- Status 429 or 504: an `HTTPError` is raised and caught, retried. -/
  | httpRetryable
  /-- Another non-2xx status: `raise_for_status` raises, caught, retried. -/
  | httpOther
  /-- Non-JSON content type whose body contains the `duplicate_query`
  signature: `DuplicateError`, caught by its dedicated handler, breaks. -/
  | nonJsonDuplicate
  /-- Other non-JSON content type: `ValueError`, caught, retried. -/
  | nonJsonOther
  /-- Transport-level `requests` exception: caught, retried. -/
  | transportError
deriving DecidableEq, Repr

/-- Outcomes the generic `except Exception` handler retries on. -/
def OverpassOutcome.retryable : OverpassOutcome → Bool
  | .success _ => false
  | .nonJsonDuplicate => false
  | _ => true

/-- Observable result of an `overpass_request` run: the returned value, the
attempt numbers actually issued, and the sleeps performed between retries. -/
structure OverpassTrace where
  result : Option ℕ
  attempts : List ℕ
  sleeps : List ℕ
deriving DecidableEq, Repr

/-- `config`-level constant of `overpass_request`: `max_retries = 5`. -/
def MAX_RETRIES : ℕ := 5

/-- The `for attempt in range(1, max_retries + 1)` loop of `overpass_request`,
parameterized by the remaining number of attempts. -/
def overpassGo (env : ℕ → OverpassOutcome) (attempt : ℕ) : ℕ → OverpassTrace
  | 0 => ⟨none, [], []⟩
  | fuel + 1 =>
    match env attempt with
    | .success d => ⟨some d, [attempt], []⟩
    | .nonJsonDuplicate => ⟨none, [attempt], []⟩
    | _ =>
      let wait := min (2 ^ attempt) 30
      let rest := overpassGo env (attempt + 1) fuel
      ⟨rest.result, attempt :: rest.attempts, wait :: rest.sleeps⟩

/-- `OSMMatcher.overpass_request` with the default `max_retries = 5`;
falling off the loop returns `None`. -/
def overpass_request (env : ℕ → OverpassOutcome) : OverpassTrace :=
  overpassGo env 1 MAX_RETRIES

/-! ## Ranking (osm_fitting.OSMMatcher.rank_matched_places)

Candidates are the dictionaries built by `search_places_around`; the ranked
entries copy the candidate and add the rounded score fields.  The distance
function (haversine, floating-point trigonometry in the source) is a
parameter of the ranking function. -/

/-- A candidate place as produced by `search_places_around`. -/
structure Place where
  id : ℕ
  name : String
  lat : Option ℚ
  lon : Option ℚ
deriving DecidableEq, Repr

/-- A ranked match: the candidate plus the rounded score fields added by
`rank_matched_places`. -/
structure RankedPlace where
  place : Place
  distance_m : ℚ
  distance_score : ℚ
  name_score : ℚ
  final_score : ℚ
deriving DecidableEq, Repr

/-- Round-half-to-even to an integer, the documented behaviour of Python
`round`. -/
def roundHalfEven (q : ℚ) : ℤ :=
  let f := ⌊q⌋
  let frac := q - f
  if frac < 1 / 2 then f
  else if 1 / 2 < frac then f + 1
  else if f % 2 = 0 then f else f + 1

/-- Python `round(q, ndigits)` over `ℚ`. -/
def pyRound (ndigits : ℕ) (q : ℚ) : ℚ :=
  (roundHalfEven (q * 10 ^ ndigits) : ℚ) / 10 ^ ndigits

/-- Default `name_weight` of `OSMMatcher.__init__`. -/
def DEFAULT_NAME_WEIGHT : ℚ := 7 / 10

/-- Default `dist_weight` of `OSMMatcher.__init__`. -/
def DEFAULT_DIST_WEIGHT : ℚ := 3 / 10

/-- The body of the `for place in places` loop of `rank_matched_places`:
`none` when the candidate is skipped (missing coordinates, or farther than
`max_distance`), otherwise the ranked entry appended to `ranked_matches`. -/
def scorePlace (dist : ℚ → ℚ → ℚ → ℚ → ℚ) (name_weight dist_weight : ℚ)
    (target_lat target_lon : ℚ) (target_name : String) (max_distance : ℚ)
    (place : Place) : Option RankedPlace :=
  match place.lat, place.lon with
  | some lat, some lon =>
    let distance := dist target_lat target_lon lat lon
    if max_distance < distance then none
    else
      let distance_score := max 0 (1 - distance / max_distance)
      let name_score := name_overlap_score target_name place.name
      let final_score := name_score * name_weight + distance_score * dist_weight
      some ⟨place, pyRound 2 distance, pyRound 3 distance_score,
        pyRound 3 name_score, pyRound 3 final_score⟩
  | _, _ => none

/-- Stable insertion of `x` into a descending-by-`final_score` list: `x` goes
after every strictly higher score and before everything else.  Together with
`sortDescFinal` this is extensionally the Python stable
`sort(key=final_score, reverse=True)`. -/
def insertDesc (x : RankedPlace) : List RankedPlace → List RankedPlace
  | [] => [x]
  | y :: ys => if x.final_score < y.final_score then y :: insertDesc x ys else x :: y :: ys

/-- Stable descending sort by `final_score`. -/
def sortDescFinal : List RankedPlace → List RankedPlace
  | [] => []
  | x :: xs => insertDesc x (sortDescFinal xs)

/-- `OSMMatcher.rank_matched_places`; `max_distance = none` models the omitted
argument, defaulted to `self.range * 2`. -/
def rank_matched_places (dist : ℚ → ℚ → ℚ → ℚ → ℚ)
    (name_weight dist_weight range : ℚ) (places : List Place)
    (target_lat target_lon : ℚ) (target_name : String)
    (max_distance : Option ℚ) : List RankedPlace :=
  if places = [] then []
  else
    let maxD := max_distance.getD (range * 2)
    sortDescFinal (places.filterMap
      (scorePlace dist name_weight dist_weight target_lat target_lon target_name maxD))

/-! ## The resolution session (osm_fitting.OSMMatcher.process_places_to_kml)

The file-processing loop is modelled as a deterministic interpreter over an
environment of oracles:

* `stopFlag k` is the value of `self.stop_requested` when the check at the top
  of iteration `k` (0-based) of the feature loop executes;
* `candidates k r` is what `search_places_around` returns for feature `k` at
  radius `r` (`none` models an exhausted Overpass retry loop);
* `userSel n` is the value returned by the `user_match_selection` callback at
  its `n`-th invocation of the run.

The interpreter emits a chronological trace of the externally visible
effects: candidate-source queries, interactive waits, progress-callback
invocations, and the final serialization of the output document.  The pure
icon/feature-type classification of the chosen match (`get_place_icon`,
`get_place_features`) cannot affect control flow or the trace and is not
tracked; the in-memory KML document is tracked by its placemark count. -/

/-- One GeoJSON feature of the input file. -/
structure Feature where
  /-- `geometry.type == "Point"`. -/
  isPoint : Bool
  /-- `geometry.coordinates`; the code requires a truthy value and unpacks it
  as `lon, lat = coordinates`. -/
  coords : List ℚ
  name : String
  descText : String
deriving DecidableEq, Repr

/-- A value returned by the `user_match_selection` callback, classified the
way the code classifies it (`type(selection) is str` / `is int` / other). -/
inductive Selection where
  | str (s : String)
  | int (n : ℤ)
  | other
deriving DecidableEq, Repr

/-- Externally visible effects of `process_places_to_kml`. -/
inductive Effect where
  /-- `search_places_around` (and hence the candidate source) invoked for
  feature `featureIdx` with `self.range = range`. -/
  | query (featureIdx : ℕ) (range : ℚ)
  /-- The blocking `user_match_selection` callback invoked during feature
  `featureIdx`. -/
  | ask (featureIdx : ℕ)
  /-- An `update_function` progress-callback invocation. -/
  | update
  /-- The final `open(output_file_path, "wb")` serialization of the document. -/
  | writeFile
deriving DecidableEq, Repr

/-- The matching-method strings (`osm_fitting.MatchingMethods`). -/
def MM_ALL : String := "all"

def MM_BEST : String := "best"

def MM_THRESHOLD : String := "threshold"

/-- The mutable `OSMMatcher` state touched by `process_places_to_kml`. -/
structure MatcherState where
  range : ℚ
  name_weight : ℚ
  dist_weight : ℚ
  successful : ℕ
  skipped : ℕ
  /-- Number of placemarks appended to `self.kml_obj`. -/
  kmlCount : ℕ
  /-- Number of `user_match_selection` invocations so far (index into the
  `userSel` oracle). -/
  userCtr : ℕ
deriving DecidableEq, Repr

/-- Environment of oracles for one `process_places_to_kml` run. -/
structure ProcEnv where
  inputExists : Bool
  outputExists : Bool
  /-- The input file parses as JSON. -/
  jsonOk : Bool
  /-- `data.get("type") == "FeatureCollection"`. -/
  isFeatureCollection : Bool
  features : List Feature
  stopFlag : ℕ → Bool
  candidates : ℕ → ℚ → Option (List Place)
  userSel : ℕ → Selection
  dist : ℚ → ℚ → ℚ → ℚ → ℚ

/-- Result of `handle_empty_osm_data`: `retry` = returned `True` (new radius,
loop again), `done` = returned `False` (feature settled), `exc` = raised
(`ValueError` on the exit command, or the uncaught `ValueError` from
`RANGES.index`). -/
inductive EmptyResult where
  | retry
  | done
  | exc
deriving DecidableEq, Repr

/-- `OSMMatcher.handle_empty_osm_data`. -/
def handle_empty_osm_data (env : ProcEnv) (ms : MatcherState) (idx : ℕ)
    (match_method : String) : EmptyResult × MatcherState × List Effect :=
  if match_method = MM_BEST then
    (.done, { ms with skipped := ms.skipped + 1, kmlCount := ms.kmlCount + 1 }, [.update])
  else
    let sel := env.userSel ms.userCtr
    let ms := { ms with userCtr := ms.userCtr + 1 }
    match sel with
    | .str s =>
      match set_radius_from_string ms.range s with
      | .ok (true, r) => (.retry, { ms with range := r }, [.ask idx])
      | .ok (false, _) => (.exc, ms, [.ask idx])
      | .error _ => (.exc, ms, [.ask idx])
    | .int n =>
      if n = -1 then
        (.done, { ms with successful := ms.successful + 1, kmlCount := ms.kmlCount + 1 },
          [.ask idx, .update])
      else
        (.done, { ms with skipped := ms.skipped + 1, kmlCount := ms.kmlCount + 1 },
          [.ask idx, .update])
    | .other =>
      (.done, { ms with skipped := ms.skipped + 1, kmlCount := ms.kmlCount + 1 },
        [.ask idx, .update])

/-- Result of `retrieve_user_selection` (`config.UserSelection`), plus `exc`
for the uncaught `ValueError` from `RANGES.index`. -/
inductive RetrieveResult where
  | newRadius
  | validItem (n : ℕ)
  | exitAll
  | otherItem
  | exc
deriving DecidableEq, Repr

/-- `OSMMatcher.retrieve_user_selection`. -/
def retrieve_user_selection (env : ProcEnv) (ms : MatcherState) (idx : ℕ) :
    RetrieveResult × MatcherState × List Effect :=
  let sel := env.userSel ms.userCtr
  let ms := { ms with userCtr := ms.userCtr + 1 }
  match sel with
  | .str s =>
    match set_radius_from_string ms.range s with
    | .ok (true, r) => (.newRadius, { ms with range := r }, [.ask idx])
    | .ok (false, r) => (.exitAll, { ms with range := r }, [.ask idx])
    | .error _ => (.exc, ms, [.ask idx])
  | .int n =>
    if 0 ≤ n then (.validItem n.toNat, ms, [.ask idx])
    else if n = -1 then
      (.otherItem, { ms with successful := ms.successful + 1, kmlCount := ms.kmlCount + 1 },
        [.ask idx, .update])
    else
      (.otherItem, { ms with skipped := ms.skipped + 1, kmlCount := ms.kmlCount + 1 },
        [.ask idx, .update])
  | .other =>
    (.otherItem, { ms with skipped := ms.skipped + 1, kmlCount := ms.kmlCount + 1 },
      [.ask idx, .update])

/-- Outcome of one iteration of the `while not match_successful` loop:
`again` loops (a radius change), `done` leaves the loop and proceeds to the
next feature, `exitAll` is a `return` out of the whole function, `exc` is an
exception caught by the per-feature handler. -/
inductive StepResult where
  | again
  | done
  | exitAll
  | exc
deriving DecidableEq, Repr

/-- The body of the `while not match_successful` loop of
`process_places_to_kml` for feature `idx` located at (`lat`, `lon`). -/
def match_iteration (env : ProcEnv) (match_method : String) (threshold : Option ℚ)
    (ms : MatcherState) (idx : ℕ) (lat lon : ℚ) (name : String) :
    StepResult × MatcherState × List Effect :=
  let cands := env.candidates idx ms.range
  let effQ : List Effect := [.query idx ms.range]
  match cands with
  | none =>
    -- `if not candidates` is True for None
    let r := handle_empty_osm_data env ms idx match_method
    (match r.1 with | .retry => .again | .done => .done | .exc => .exc,
      r.2.1, effQ ++ r.2.2)
  | some [] =>
    -- `if not candidates` is True for the empty list
    let r := handle_empty_osm_data env ms idx match_method
    (match r.1 with | .retry => .again | .done => .done | .exc => .exc,
      r.2.1, effQ ++ r.2.2)
  | some cs =>
    let ranked := rank_matched_places env.dist ms.name_weight ms.dist_weight ms.range
      cs lat lon name none
    -- the second `if not candidates` check re-tests the unchanged, non-empty
    -- `candidates` list and is therefore inert
    if match_method = MM_BEST then
      match ranked with
      | [] => (.exc, ms, effQ)   -- ranked_matches[0]: IndexError
      | _ :: _ =>
        (.done, { ms with successful := ms.successful + 1, kmlCount := ms.kmlCount + 1 }, effQ)
    else if match_method = MM_THRESHOLD then
      match threshold with
      | none =>
        (.done, { ms with skipped := ms.skipped + 1, kmlCount := ms.kmlCount + 1 },
          effQ ++ [.update])
      | some thr =>
        match ranked with
        | [] => (.exc, ms, effQ)   -- ranked_matches[0]: IndexError
        | best :: _ =>
          if thr ≤ best.final_score then
            (.done, { ms with successful := ms.successful + 1, kmlCount := ms.kmlCount + 1 },
              effQ)
          else
            let r := retrieve_user_selection env ms idx
            let ms1 := r.2.1
            match r.1 with
            | .newRadius => (.again, ms1, effQ ++ r.2.2)
            | .validItem n =>
              if n < ranked.length then
                let ms2 := { ms1 with successful := ms1.successful + 1, kmlCount := ms1.kmlCount + 1 }
                (.done, ms2, effQ ++ r.2.2)
              else
                (.exc, ms1, effQ ++ r.2.2)   -- ranked_matches[selection]: IndexError
            | .exitAll => (.exitAll, ms1, effQ ++ r.2.2)
            | .otherItem => (.done, ms1, effQ ++ r.2.2)
            | .exc => (.exc, ms1, effQ ++ r.2.2)
    else if match_method = MM_ALL then
      let r := retrieve_user_selection env ms idx
      let ms1 := r.2.1
      match r.1 with
      | .newRadius => (.again, ms1, effQ ++ r.2.2)
      | .validItem n =>
        if n < ranked.length then
          let ms2 := { ms1 with successful := ms1.successful + 1, kmlCount := ms1.kmlCount + 1 }
          (.done, ms2, effQ ++ r.2.2)
        else
          (.exc, ms1, effQ ++ r.2.2)
      | .exitAll => (.exitAll, ms1, effQ ++ r.2.2)
      | .otherItem => (.done, ms1, effQ ++ r.2.2)
      | .exc => (.exc, ms1, effQ ++ r.2.2)
    else
      -- `else: log.error(...); break`
      (.done, ms, effQ)

/-- Outcome of processing one feature: proceed to the next feature with the
new state, `return` out of the whole function, or interpreter fuel exhausted
inside the `while` loop. -/
inductive FeatOut where
  | next (ms : MatcherState)
  | retE (ms : MatcherState)
  | fuelOut
deriving DecidableEq, Repr

/-- The `while not match_successful` loop, with `fuel` bounding the number of
iterations the interpreter unfolds. -/
def run_while (env : ProcEnv) (match_method : String) (threshold : Option ℚ)
    (idx : ℕ) (lat lon : ℚ) (name : String) :
    ℕ → MatcherState → FeatOut × List Effect
  | 0, _ => (.fuelOut, [])
  | fuel + 1, ms =>
    let r := match_iteration env match_method threshold ms idx lat lon name
    match r.1 with
    | .again =>
      let w := run_while env match_method threshold idx lat lon name fuel r.2.1
      (w.1, r.2.2 ++ w.2)
    | .done => (.next r.2.1, r.2.2)
    | .exitAll => (.retE r.2.1, r.2.2)
    | .exc => (.next { r.2.1 with skipped := r.2.1.skipped + 1 }, r.2.2)

/-- One iteration of the `for idx, feature in enumerate(features)` loop after
the stop check and radius reset: geometry validation, the matching loop, and
the per-feature progress callback. -/
def process_feature (env : ProcEnv) (match_method : String) (threshold : Option ℚ)
    (ms : MatcherState) (idx : ℕ) (f : Feature) (fuel : ℕ) : FeatOut × List Effect :=
  if f.coords = [] ∨ f.isPoint = false then
    -- invalid geometry: skipped, `continue` (bypassing the per-feature update)
    (.next { ms with skipped := ms.skipped + 1 }, [])
  else
    match f.coords with
    | [lon, lat] =>
      let w := run_while env match_method threshold idx lat lon f.name fuel ms
      match w.1 with
      | .next ms' => (.next ms', w.2 ++ [.update])
      | .retE ms' => (.retE ms', w.2)
      | .fuelOut => (.fuelOut, w.2)
    | _ =>
      -- `lon, lat = coordinates` raises; the per-feature handler counts a skip
      -- and falls through to the update call
      (.next { ms with skipped := ms.skipped + 1 }, [.update])

/-- Overall outcome of a `process_places_to_kml` run. -/
inductive ProcOutcome where
  /-- Validation failed (missing input, existing output without overwrite,
  unreadable JSON, or not a FeatureCollection): an early `return`. -/
  | aborted
  /-- The stop check at the top of a feature iteration fired: `return`. -/
  | stopped
  /-- The user selection produced the exit command inside
  `retrieve_user_selection`: `return`. -/
  | exited
  /-- The feature loop ran to completion and the document was serialized. -/
  | finished
  /-- Interpreter fuel exhausted inside a `while` loop. -/
  | fuelOut
deriving DecidableEq, Repr

/-- The `for idx, feature in enumerate(features)` loop. -/
def process_loop (env : ProcEnv) (match_method : String) (threshold : Option ℚ)
    (fuel : ℕ) : List Feature → ℕ → MatcherState → ProcOutcome × MatcherState × List Effect
  | [], _, ms => (.finished, ms, [])
  | f :: rest, idx, ms =>
    if env.stopFlag idx then (.stopped, ms, [])
    else
      let ms := { ms with range := DEFAULT_RANGE }
      let r := process_feature env match_method threshold ms idx f fuel
      match r.1 with
      | .next ms' =>
        let l := process_loop env match_method threshold fuel rest (idx + 1) ms'
        (l.1, l.2.1, r.2 ++ l.2.2)
      | .retE ms' => (.exited, ms', r.2)
      | .fuelOut => (.fuelOut, ms, r.2)

/-- `OSMMatcher.process_places_to_kml`.  `ms0` is the matcher state at entry
(the counters are reset to zero before any validation); `fuel` bounds the
number of interactive retries the interpreter unfolds per feature. -/
def process_places_to_kml (env : ProcEnv) (match_method : String)
    (threshold : Option ℚ) (overwrite_output : Bool) (ms0 : MatcherState)
    (fuel : ℕ) : ProcOutcome × MatcherState × List Effect :=
  let ms := { ms0 with successful := 0, skipped := 0 }
  if env.inputExists = false then (.aborted, ms, [])
  else if env.outputExists = true ∧ overwrite_output = false then (.aborted, ms, [])
  else if env.jsonOk = false then (.aborted, ms, [])
  else if env.isFeatureCollection = false then (.aborted, ms, [])
  else
    -- `self.kml_obj = KML.kml(KML.Document())`
    let ms := { ms with kmlCount := 0 }
    let r := process_loop env match_method threshold fuel env.features 0 ms
    match r.1 with
    | .finished => (.finished, r.2.1, r.2.2 ++ [.writeFile, .update])
    | o => (o, r.2.1, r.2.2)

/-! ## Auxiliary predicates used in the claim statements -/

/-- `u` dominates `t` in the sense of the longest-type reduction: equal
prefixes and `u` strictly longer. -/
def dominates (u t : List String) : Prop :=
  prefixEq t u = true ∧ t.length < u.length

/-- Some entry of `processed` dominates `t`. -/
def dominatedIn (processed : List (List String)) (t : List String) : Prop :=
  ∃ u ∈ processed, dominates u t

/-- Invariant of the outer loop of `leave_longest_types`: `acc` holds exactly
the entries of the processed input that no processed entry dominates. -/
def LLInv (processed acc : List (List String)) : Prop :=
  (∀ r ∈ acc, r ∈ processed ∧ ¬ dominatedIn processed r) ∧
  (∀ t ∈ processed, ¬ dominatedIn processed t → t ∈ acc)

/-- A `parse_mapcss` input line that is skipped: no fields, or a blank or
`#`-comment first field. -/
def lineSkipped (line : String) : Prop :=
  csvFields line = [] ∨
    ∃ f0 rest, csvFields line = f0 :: rest ∧
      (pyStrip f0 = "" ∨ strStartsWithChar (pyStrip f0) '#' = true)

/-- A `parse_mapcss` input line that reaches the rule forms: non-empty with a
non-blank, non-comment first field. -/
def lineActive (line : String) : Prop :=
  ∃ f0 rest, csvFields line = f0 :: rest ∧
    ¬(pyStrip f0 = "" ∨ strStartsWithChar (pyStrip f0) '#' = true)

/-- An active line with a field count other than 3 and 7. -/
def badFieldCountLine (line : String) : Prop :=
  lineActive line ∧ (csvFields line).length ≠ 3 ∧ (csvFields line).length ≠ 7

/-- An active 7-field line whose third field is not the `"x"` marker, i.e. one
processed through `process_full`. -/
def fullRuleLine (line : String) : Prop :=
  lineActive line ∧ (csvFields line).length = 7 ∧ (csvFields line).getD 2 "" ≠ "x"

/-- A full-rule line one of whose (non-empty, stripped) selectors is not
enclosed in brackets. -/
def badSelectorLine (line : String) : Prop :=
  fullRuleLine line ∧
    ∃ sel ∈ pySplitOnChar ',' ((csvFields line).getD 1 ""),
      pyStrip sel ≠ "" ∧
        ¬(strStartsWithChar (pyStrip sel) '[' = true ∧
          strEndsWithChar (pyStrip sel) ']' = true)

/-- A full-rule line one of whose bracket selectors holds a tag token with
more than one `=`. -/
def badTagTokenLine (line : String) : Prop :=
  fullRuleLine line ∧
    ∃ sel ∈ pySplitOnChar ',' ((csvFields line).getD 1 ""),
      pyStrip sel ≠ "" ∧ strStartsWithChar (pyStrip sel) '[' = true ∧
        strEndsWithChar (pyStrip sel) ']' = true ∧
      ∃ kv ∈ innerParts (pyStrip sel), 2 < (pySplitOnChar '=' kv).length

/-- The ranges of the candidate-source queries issued for feature `k`, in
chronological order. -/
def queryRanges (k : ℕ) (effs : List Effect) : List ℚ :=
  effs.filterMap (fun e =>
    match e with
    | .query k2 r => if k2 = k then some r else none
    | _ => none)

/-! # Theorems -/

/-! ## C5: MapcssRule.matches -/

/-- C5: `MapcssRule.matches(tags)` returns true if and only if every required
(key,value) pair of the rule is present in `tags`, every mandatory key is
present with a value other than "no", and every forbidden key is either
absent from `tags` or present only with value "no". -/
theorem matches_iff_required_mandatory_forbidden (rule : MapcssRule) (tags : List OsmTag) :
    rule.matches tags = true ↔
      ((∀ tag ∈ rule.m_tags, tag ∈ tags) ∧
       (∀ key ∈ rule.m_mandatoryKeys, ∃ t ∈ tags, t.key = key ∧ t.value ≠ "no") ∧
       (∀ key ∈ rule.m_forbiddenKeys, ∀ t ∈ tags, t.key = key → t.value = "no")) := by
  simp only [MapcssRule.matches, Bool.and_eq_true, List.all_eq_true, List.any_eq_true,
    decide_eq_true_eq, Bool.or_eq_true, ne_eq, Bool.and_eq_true]
  constructor
  · rintro ⟨⟨h1, h2⟩, h3⟩
    refine ⟨fun tag htag => ?_, fun key hkey => ?_, fun key hkey t ht hk => ?_⟩
    · obtain ⟨t, ht, rfl⟩ := h1 tag htag
      exact ht
    · obtain ⟨t, ht, hp⟩ := h2 key hkey
      exact ⟨t, ht, hp.1, hp.2⟩
    · rcases h3 key hkey t ht with h | h
      · exact absurd hk h
      · exact h
  · rintro ⟨h1, h2, h3⟩
    refine ⟨⟨fun tag htag => ⟨tag, h1 tag htag, rfl⟩, fun key hkey => ?_⟩, fun key hkey t ht => ?_⟩
    · obtain ⟨t, ht, hk, hv⟩ := h2 key hkey
      exact ⟨t, ht, hk, hv⟩
    · by_cases hk : t.key = key
      · exact Or.inr (h3 key hkey t ht hk)
      · exact Or.inl hk

/-! ## C3: name_overlap_score -/

lemma name_overlap_self_of_nonempty (a : String) (h : normalizeName a ≠ ∅) :
    name_overlap_score a a = 1 := by
  unfold name_overlap_score
  rw [if_neg (by simp [h])]
  rw [Finset.inter_self, Finset.union_self]
  have hc : (normalizeName a).card ≠ 0 := by
    simpa [Finset.card_eq_zero] using h
  exact div_self (by exact_mod_cast hc)

lemma name_overlap_zero_of_empty (a b : String)
    (h : normalizeName a = ∅ ∨ normalizeName b = ∅) :
    name_overlap_score a b = 0 := by
  unfold name_overlap_score
  rw [if_pos h]

lemma name_overlap_zero_of_disjoint (a b : String)
    (h : ∀ w ∈ normalizeName a, w ∉ normalizeName b) :
    name_overlap_score a b = 0 := by
  unfold name_overlap_score
  by_cases he : normalizeName a = ∅ ∨ normalizeName b = ∅
  · rw [if_pos he]
  · rw [if_neg he]
    have : normalizeName a ∩ normalizeName b = ∅ := by
      ext w
      simp only [Finset.mem_inter, Finset.not_mem_empty, iff_false]
      rintro ⟨hwa, hwb⟩
      exact h w hwa hwb
    simp [this]

lemma splitWords_of_all_alpha (a : String) (h2 : ∀ c ∈ a.toList, c.isAlpha = true)
    (h0 : a.toList ≠ []) : splitWords a = [a.toList] := by
  unfold splitWords
  rw [List.splitOnP_eq_single]
  · have h0' : ¬(a.data = []) := h0
    simp [h0']
  · intro c hc
    simp [isWordChar, Char.isAlphanum, h2 c hc]

lemma normalizeName_of_all_alpha (a : String) (h2 : ∀ c ∈ a.toList, c.isAlpha = true)
    (h3 : 2 < a.toList.length) :
    normalizeName a = {String.mk (a.toList.map Char.toLower)} := by
  unfold normalizeName
  rw [splitWords_of_all_alpha a h2 (by intro h; rw [h] at h3; exact absurd h3 (by decide))]
  rw [List.filter_singleton, decide_eq_true h3, cond_true]
  simp

/-- C3 counterexample: `"ab"` is a non-empty purely alphabetic name, yet
`name_overlap_score "ab" "ab"` is `0.0`, not `1.0`: the token set of a name
with no word longer than 2 characters is empty, and the empty-set guard
returns `0.0` before the Jaccard computation. -/
theorem name_overlap_self_fails_on_short_name :
    ("ab" : String) ≠ "" ∧ (∀ c ∈ ("ab" : String).toList, c.isAlpha = true) ∧
    name_overlap_score "ab" "ab" ≠ 1 ∧ name_overlap_score "ab" "ab" = 0 := by
  decide

/-- C3 (amended): `name_overlap_score a a = 1.0` for every alphabetic name
with more than two characters (more generally, whenever the token set is
non-empty); `0.0` when the two token sets share no token (all tokens have
length at least 3 by construction); and `0.0` whenever either token set is
empty. -/
theorem name_overlap_score_spec :
    (∀ a : String, (∀ c ∈ a.toList, c.isAlpha = true) → 2 < a.toList.length →
      name_overlap_score a a = 1) ∧
    (∀ a b : String, (∀ w ∈ normalizeName a, w ∉ normalizeName b) →
      name_overlap_score a b = 0) ∧
    (∀ a b : String, normalizeName a = ∅ ∨ normalizeName b = ∅ →
      name_overlap_score a b = 0) := by
  refine ⟨fun a h2 h3 => ?_, name_overlap_zero_of_disjoint, name_overlap_zero_of_empty⟩
  apply name_overlap_self_of_nonempty
  rw [normalizeName_of_all_alpha a h2 h3]
  simp

/-- Witness for C3 (amended) at concrete names. -/
theorem name_overlap_score_spec_witness :
    name_overlap_score "Luna" "Luna" = 1 ∧ name_overlap_score "Luna" "Cafe" = 0 ∧
    name_overlap_score "ab" "Luna" = 0 :=
  ⟨name_overlap_score_spec.1 "Luna" (by decide) (by decide),
   name_overlap_score_spec.2.1 "Luna" "Cafe" (by decide),
   name_overlap_score_spec.2.2 "ab" "Luna" (Or.inl (by decide))⟩

/-! ## C2: set_radius_from_string -/

/-- C2 (code bug): evaluation at the failing input.  With the radius at the
minimum (10) a zoom-in command does not clamp to the defined fallback: the
dead `self.range = DEFAULT_RANGE` assignment is overwritten by
`RANGES[new_index]` with `new_index = -1`, which Python resolves to the LAST
element, 5000 — despite the warning just logged, which claims the default
range (10) is used.  A zoom-out at the maximum (5000), by contrast, does fall
back to the default, because `RANGES[5]` raises an `IndexError` that the
handler turns into `DEFAULT_RANGE`.  Neither branch raises, and both results
stay inside `RANGES`. -/
theorem set_radius_zoom_in_at_minimum_is_5000 :
    set_radius_from_string 10 ZOOM_IN = .ok (true, 5000) ∧
    set_radius_from_string 5000 ZOOM_OUT = .ok (true, DEFAULT_RANGE) ∧
    (5000 : ℚ) ≠ DEFAULT_RANGE :=
  ⟨rfl, rfl, by norm_num [DEFAULT_RANGE]⟩

lemma overpassGo_attempts_mem (env : ℕ → OverpassOutcome) :
    ∀ (fuel attempt : ℕ), ∀ a ∈ (overpassGo env attempt fuel).attempts,
      attempt ≤ a ∧ a < attempt + fuel := by
  intro fuel
  induction fuel with
  | zero => intro attempt a ha; simp [overpassGo] at ha
  | succ n ih =>
    intro attempt a ha
    unfold overpassGo at ha
    rcases h : env attempt with d | _ | _ | _ | _ | _ <;> rw [h] at ha <;>
      simp only [List.mem_cons, List.mem_singleton, List.not_mem_nil, or_false] at ha
    case success =>
      subst ha; omega
    case nonJsonDuplicate =>
      subst ha; omega
    all_goals
      rcases ha with rfl | ha
      · omega
      · obtain ⟨h1, h2⟩ := ih (attempt + 1) a ha
        omega

lemma overpassGo_attempts_len (env : ℕ → OverpassOutcome) :
    ∀ (fuel attempt : ℕ), (overpassGo env attempt fuel).attempts.length ≤ fuel := by
  intro fuel
  induction fuel with
  | zero => intro attempt; simp [overpassGo]
  | succ n ih =>
    intro attempt
    unfold overpassGo
    rcases h : env attempt with d | _ | _ | _ | _ | _ <;> simp <;>
      exact ih (attempt + 1)

lemma overpassGo_sleeps (env : ℕ → OverpassOutcome) :
    ∀ (fuel attempt : ℕ),
      (overpassGo env attempt fuel).sleeps =
        ((overpassGo env attempt fuel).attempts.filter
          (fun a => (env a).retryable)).map (fun a => min (2 ^ a) 30) := by
  intro fuel
  induction fuel with
  | zero => intro attempt; simp [overpassGo]
  | succ n ih =>
    intro attempt
    unfold overpassGo
    rcases h : env attempt with d | _ | _ | _ | _ | _ <;>
      simp [List.filter, h, OverpassOutcome.retryable, ih (attempt + 1)]

lemma overpassGo_duplicate (env : ℕ → OverpassOutcome) :
    ∀ (fuel attempt k : ℕ), env k = .nonJsonDuplicate →
      (∀ j, attempt ≤ j → j < k → (env j).retryable = true) →
      attempt ≤ k → k < attempt + fuel →
      (overpassGo env attempt fuel).result = none ∧
        (overpassGo env attempt fuel).attempts = List.range' attempt (k + 1 - attempt) := by
  intro fuel
  induction fuel with
  | zero => intro attempt k _ _ _ hlt; omega
  | succ n ih =>
    intro attempt k hk hret hle hlt
    by_cases hak : attempt = k
    · subst hak
      unfold overpassGo
      rw [hk]
      simp [List.range'_succ]
    · have hlt2 : attempt < k := lt_of_le_of_ne hle hak
      have hr : (env attempt).retryable = true := hret attempt le_rfl hlt2
      have hle2 : attempt + 1 ≤ k := by omega
      have hlt3 : k < attempt + 1 + n := by omega
      obtain ⟨ih1, ih2⟩ := ih (attempt + 1) k hk
        (fun j hj hjk => hret j (by omega) hjk) hle2 hlt3
      have harith : k + 1 - attempt = (k - attempt) + 1 := by omega
      have harith2 : k + 1 - (attempt + 1) = k - attempt := by omega
      unfold overpassGo
      rcases h : env attempt with d | _ | _ | _ | _ | _ <;>
        rw [h] at hr <;> simp [OverpassOutcome.retryable] at hr <;>
        · refine ⟨ih1, ?_⟩
          show attempt :: (overpassGo env (attempt + 1) n).attempts = _
          rw [ih2, harith2, harith, List.range'_succ]

lemma overpassGo_all_retryable (env : ℕ → OverpassOutcome) :
    ∀ (fuel attempt : ℕ),
      (∀ j, attempt ≤ j → j < attempt + fuel → (env j).retryable = true) →
      (overpassGo env attempt fuel).result = none := by
  intro fuel
  induction fuel with
  | zero => intro attempt _; simp [overpassGo]
  | succ n ih =>
    intro attempt hret
    have hr : (env attempt).retryable = true := hret attempt le_rfl (by omega)
    unfold overpassGo
    rcases h : env attempt with d | _ | _ | _ | _ | _ <;>
      rw [h] at hr <;> simp [OverpassOutcome.retryable] at hr <;>
      exact ih (attempt + 1) (fun j hj hjk => hret j (by omega) (by omega))

/-- C6: the remote candidate query issues at most 5 attempts; every sleep
between retries is `min(2 ** attempt, 30)` seconds, hence capped at 30; a
duplicate-query response at attempt `k` (after retryable failures) aborts
immediately — the attempts issued are exactly `1..k` — with result `None`;
and exhausting all 5 retryable attempts returns `None` instead of raising. -/
theorem overpass_request_retry_policy (env : ℕ → OverpassOutcome) :
    ((overpass_request env).attempts.length ≤ MAX_RETRIES ∧
      ∀ a ∈ (overpass_request env).attempts, 1 ≤ a ∧ a ≤ MAX_RETRIES) ∧
    ((overpass_request env).sleeps =
      ((overpass_request env).attempts.filter (fun a => (env a).retryable)).map
        (fun a => min (2 ^ a) 30) ∧
      ∀ s ∈ (overpass_request env).sleeps, s ≤ 30) ∧
    (∀ k, env k = .nonJsonDuplicate →
      (∀ j, j < k → 1 ≤ j → (env j).retryable = true) → 1 ≤ k → k ≤ MAX_RETRIES →
      (overpass_request env).result = none ∧
        (overpass_request env).attempts = List.range' 1 k) ∧
    ((∀ j, j ≤ MAX_RETRIES → 1 ≤ j → (env j).retryable = true) →
      (overpass_request env).result = none) := by
  refine ⟨⟨overpassGo_attempts_len env MAX_RETRIES 1, fun a ha => ?_⟩,
    ⟨overpassGo_sleeps env MAX_RETRIES 1, fun s hs => ?_⟩,
    fun k hk hret h1 h5 => ?_, fun h => ?_⟩
  · obtain ⟨ha1, ha2⟩ := overpassGo_attempts_mem env MAX_RETRIES 1 a ha
    exact ⟨ha1, by simp [MAX_RETRIES] at ha2 ⊢; omega⟩
  · simp only [overpass_request] at hs
    rw [overpassGo_sleeps] at hs
    simp only [List.mem_map] at hs
    obtain ⟨a, _, rfl⟩ := hs
    exact min_le_right _ _
  · have hd := overpassGo_duplicate env MAX_RETRIES 1 k hk
      (fun j hj hjk => hret j hjk hj) h1 (by simp [MAX_RETRIES] at h5 ⊢; omega)
    simpa [Nat.add_sub_cancel] using hd
  · exact overpassGo_all_retryable env MAX_RETRIES 1
      (fun j hj hjk => h j (by simp [MAX_RETRIES] at hjk ⊢; omega) hj)

/-- Witness for C6 at two concrete outcome sequences. -/
theorem overpass_request_retry_policy_witness :
    (overpass_request (fun i => if i = 3 then .nonJsonDuplicate else .transportError)).result
      = none ∧
    (overpass_request (fun i => if i = 3 then .nonJsonDuplicate else .transportError)).attempts
      = [1, 2, 3] ∧
    (overpass_request (fun _ => .transportError)).result = none := by
  refine ⟨((overpass_request_retry_policy
      (fun i => if i = 3 then .nonJsonDuplicate else .transportError)).2.2.1 3
      (by decide) (by decide) (by decide) (by decide)).1, ?_,
    (overpass_request_retry_policy (fun _ => .transportError)).2.2.2 (by decide)⟩
  have h := ((overpass_request_retry_policy
      (fun i => if i = 3 then .nonJsonDuplicate else .transportError)).2.2.1 3
      (by decide) (by decide) (by decide) (by decide)).2
  simpa using h

/-! ## C1: leave_longest_types -/

lemma prefixEq_symm (a b : List String) : prefixEq a b = prefixEq b a := by
  unfold prefixEq
  rw [min_comm b.length a.length]
  exact decide_eq_decide.mpr ⟨Eq.symm, Eq.symm⟩

lemma prefixEq_trans_of_le (a b c : List String) (hab : a.length ≤ b.length)
    (hbc : b.length ≤ c.length) (h1 : prefixEq a b = true) (h2 : prefixEq b c = true) :
    prefixEq a c = true := by
  unfold prefixEq at h1 h2 ⊢
  simp only [decide_eq_true_eq] at h1 h2 ⊢
  rw [min_eq_left hab] at h1
  rw [min_eq_left hbc] at h2
  rw [min_eq_left (le_trans hab hbc)]
  have hk : min 2 a.length ≤ min 2 b.length := min_le_min le_rfl hab
  have h2t : b.take (min 2 a.length) = c.take (min 2 a.length) := by
    have hc := congrArg (List.take (min 2 a.length)) h2
    simpa [List.take_take, min_eq_left hk] using hc
  rw [h1, h2t]

lemma foldl_erase_cons_of_ne {α : Type} [BEq α] [LawfulBEq α] (a : α) :
    ∀ (rs l : List α), (∀ r ∈ rs, r ≠ a) →
      rs.foldl (fun acc r => acc.erase r) (a :: l) =
        a :: rs.foldl (fun acc r => acc.erase r) l := by
  intro rs
  induction rs with
  | nil => intro l _; rfl
  | cons r rs ih =>
    intro l h
    simp only [List.foldl_cons]
    rw [List.erase_cons_tail (by simpa using Ne.symm (h r (List.mem_cons_self r rs)))]
    exact ih (l.erase r) (fun x hx => h x (List.mem_cons_of_mem r hx))

lemma foldl_erase_filter {α : Type} [BEq α] [LawfulBEq α] (l : List α) (p : α → Bool) :
    (l.filter p).foldl (fun acc r => acc.erase r) l = l.filter (fun x => !(p x)) := by
  induction l with
  | nil => rfl
  | cons a l ih =>
    by_cases hpa : p a = true
    · rw [List.filter_cons_of_pos hpa]
      simp only [List.foldl_cons, List.erase_cons_head]
      rw [ih, List.filter_cons_of_neg (by simp [hpa])]
    · rw [List.filter_cons_of_neg hpa]
      rw [foldl_erase_cons_of_ne a (l.filter p) l
        (fun r hr => by
          have := List.of_mem_filter hr
          intro he
          rw [he] at this
          exact hpa this)]
      rw [ih, List.filter_cons_of_pos (by simp [hpa])]

lemma scanExisting_fst (t : List String) :
    ∀ (l : List (List String)),
      (scanExisting t l).1 =
        !(l.any (fun e => prefixEq t e && decide (t.length < e.length))) := by
  intro l
  induction l with
  | nil => rfl
  | cons e rest ih =>
    unfold scanExisting
    by_cases h1 : prefixEq t e = true
    · rw [if_pos h1]
      by_cases h2 : e.length < t.length
      · rw [if_pos h2]
        have h3 : ¬ t.length < e.length := by omega
        simp [h1, h3, ih]
      · rw [if_neg h2]
        by_cases h3 : t.length < e.length
        · rw [if_pos h3]
          simp [h1, h3]
        · rw [if_neg h3]
          simp [h1, h3, ih]
    · rw [if_neg h1]
      simp [h1, ih]

lemma scanExisting_snd (t : List String) :
    ∀ (l : List (List String)), (scanExisting t l).1 = true →
      (scanExisting t l).2 =
        l.filter (fun e => prefixEq t e && decide (e.length < t.length)) := by
  intro l
  induction l with
  | nil => intro _; rfl
  | cons e rest ih =>
    intro hkeep
    unfold scanExisting at hkeep ⊢
    by_cases h1 : prefixEq t e = true
    · rw [if_pos h1] at hkeep ⊢
      by_cases h2 : e.length < t.length
      · rw [if_pos h2] at hkeep ⊢
        rw [List.filter_cons_of_pos (by simp [h1, h2])]
        simp only
        rw [ih hkeep]
      · rw [if_neg h2] at hkeep ⊢
        by_cases h3 : t.length < e.length
        · rw [if_pos h3] at hkeep
          simp at hkeep
        · rw [if_neg h3] at hkeep ⊢
          rw [List.filter_cons_of_neg (by simp [h2])]
          exact ih hkeep
    · rw [if_neg h1] at hkeep ⊢
      rw [List.filter_cons_of_neg (by simp [h1])]
      exact ih hkeep

lemma insertType_of_blocked (result : List (List String)) (t : List String)
    (h : ∃ e ∈ result, prefixEq t e = true ∧ t.length < e.length) :
    insertType result t = result := by
  have hf : (scanExisting t result).1 = false := by
    rw [scanExisting_fst]
    obtain ⟨e, he, h1, h2⟩ := h
    have hany : result.any (fun e => prefixEq t e && decide (t.length < e.length)) = true :=
      List.any_eq_true.mpr ⟨e, he, by simp [h1, h2]⟩
    rw [hany]
    rfl
  have hdef : insertType result t =
      if (scanExisting t result).1 = true
      then (scanExisting t result).2.foldl (fun acc r => acc.erase r) result ++ [t]
      else result := rfl
  rw [hdef, hf]
  rfl

lemma insertType_of_free (result : List (List String)) (t : List String)
    (h : ∀ e ∈ result, ¬(prefixEq t e = true ∧ t.length < e.length)) :
    insertType result t =
      result.filter (fun e => !(prefixEq t e && decide (e.length < t.length))) ++ [t] := by
  have hf : (scanExisting t result).1 = true := by
    rw [scanExisting_fst]
    simp only [Bool.not_eq_true']
    rw [List.any_eq_false]
    intro e he
    simp only [Bool.and_eq_true, decide_eq_true_eq, not_and]
    intro h1 h2
    exact h e he ⟨h1, h2⟩
  have hdef : insertType result t =
      if (scanExisting t result).1 = true
      then (scanExisting t result).2.foldl (fun acc r => acc.erase r) result ++ [t]
      else result := rfl
  rw [hdef, hf]
  simp only [if_true]
  rw [scanExisting_snd t result hf, foldl_erase_filter]

lemma exists_length_max {α : Type} (f : α → ℕ) :
    ∀ (l : List α), l ≠ [] → ∃ u ∈ l, ∀ v ∈ l, f v ≤ f u := by
  intro l
  induction l with
  | nil => intro h; exact absurd rfl h
  | cons a l ih =>
    intro _
    by_cases hl : l = []
    · subst hl
      exact ⟨a, by simp, by simp⟩
    · obtain ⟨u, hu, hmax⟩ := ih hl
      by_cases hau : f a ≤ f u
      · refine ⟨u, List.mem_cons_of_mem a hu, fun v hv => ?_⟩
        rcases List.mem_cons.mp hv with rfl | hv
        · exact hau
        · exact hmax v hv
      · refine ⟨a, List.mem_cons_self a l, fun v hv => ?_⟩
        rcases List.mem_cons.mp hv with rfl | hv
        · exact le_rfl
        · exact le_trans (hmax v hv) (le_of_not_le hau)

lemma LLInv_insert (P acc : List (List String)) (t : List String) (h : LLInv P acc) :
    LLInv (P ++ [t]) (insertType acc t) := by
  obtain ⟨hIn, hCom⟩ := h
  by_cases hb : ∃ e ∈ acc, prefixEq t e = true ∧ t.length < e.length
  · -- the new entry is discarded: some existing entry is longer with equal prefix
    rw [insertType_of_blocked acc t hb]
    obtain ⟨e, heacc, hpe, hlt⟩ := hb
    have heP : e ∈ P := (hIn e heacc).1
    constructor
    · intro r hr
      obtain ⟨hrP, hrnd⟩ := hIn r hr
      refine ⟨List.mem_append_left _ hrP, ?_⟩
      rintro ⟨u, hu, hdom⟩
      rcases List.mem_append.mp hu with huP | hut
      · exact hrnd ⟨u, huP, hdom⟩
      · have hut2 : t = u := (show u = t by simpa using hut).symm
        subst hut2
        obtain ⟨hpr, hlr⟩ := hdom
        have hre : prefixEq r e = true :=
          prefixEq_trans_of_le r t e (le_of_lt hlr) (le_of_lt hlt) hpr hpe
        exact hrnd ⟨e, heP, hre, lt_trans hlr hlt⟩
    · intro s hs hnd
      rcases List.mem_append.mp hs with hsP | hst
      · refine hCom s hsP ?_
        rintro ⟨u, hu, hd⟩
        exact hnd ⟨u, List.mem_append_left _ hu, hd⟩
      · have hst2 : t = s := (show s = t by simpa using hst).symm
        subst hst2
        exact absurd ⟨e, List.mem_append_left _ heP, hpe, hlt⟩ hnd
  · -- the new entry is kept; the dominated existing entries are removed
    rw [insertType_of_free acc t (fun e he hc => hb ⟨e, he, hc⟩)]
    constructor
    · intro r hr
      rcases List.mem_append.mp hr with hrf | hrt
      · rw [List.mem_filter] at hrf
        obtain ⟨hracc, hcond⟩ := hrf
        obtain ⟨hrP, hrnd⟩ := hIn r hracc
        refine ⟨List.mem_append_left _ hrP, ?_⟩
        rintro ⟨u, hu, hdom⟩
        rcases List.mem_append.mp hu with huP | hut
        · exact hrnd ⟨u, huP, hdom⟩
        · have hut2 : t = u := (show u = t by simpa using hut).symm
          subst hut2
          obtain ⟨hpr, hlr⟩ := hdom
          have hpt : prefixEq t r = true := by rw [prefixEq_symm]; exact hpr
          simp [hpt, hlr] at hcond
      · have hrt2 : t = r := (show r = t by simpa using hrt).symm
        subst hrt2
        refine ⟨List.mem_append_right _ (by simp), ?_⟩
        rintro ⟨u, hu, hdom⟩
        rcases List.mem_append.mp hu with huP | hut
        · -- a processed entry dominates the new one; take a dominator of
          -- maximal length: it is undominated, hence in acc, contradicting
          -- that the scan kept the new entry
          obtain ⟨hpu, hlu⟩ := hdom
          have huS : u ∈ P.filter (fun v => prefixEq t v && decide (t.length < v.length)) := by
            rw [List.mem_filter]
            exact ⟨huP, by simp [hpu, hlu]⟩
          obtain ⟨m, hmS, hmax⟩ :=
            exists_length_max List.length _ (List.ne_nil_of_mem huS)
          rw [List.mem_filter] at hmS
          obtain ⟨hmP, hmcond⟩ := hmS
          simp only [Bool.and_eq_true, decide_eq_true_eq] at hmcond
          obtain ⟨hm1, hm2⟩ := hmcond
          have hmnd : ¬ dominatedIn P m := by
            rintro ⟨w, hwP, hpw, hlw⟩
            have hptw : prefixEq t w = true :=
              prefixEq_trans_of_le t m w (le_of_lt hm2) (le_of_lt hlw) hm1 hpw
            have hwS : w ∈ P.filter (fun v => prefixEq t v && decide (t.length < v.length)) := by
              rw [List.mem_filter]
              exact ⟨hwP, by simp [hptw, lt_trans hm2 hlw]⟩
            have := hmax w hwS
            omega
          have hmacc : m ∈ acc := hCom m hmP hmnd
          exact hb ⟨m, hmacc, hm1, hm2⟩
        · have hut2 : t = u := (show u = t by simpa using hut).symm
          subst hut2
          exact absurd hdom.2 (by omega)
    · intro s hs hnd
      rcases List.mem_append.mp hs with hsP | hst
      · have hsacc : s ∈ acc := by
          refine hCom s hsP ?_
          rintro ⟨u, hu, hd⟩
          exact hnd ⟨u, List.mem_append_left _ hu, hd⟩
        apply List.mem_append_left
        rw [List.mem_filter]
        refine ⟨hsacc, ?_⟩
        simp only [Bool.not_eq_true', Bool.and_eq_false_iff]
        by_contra hc
        simp only [not_or, Bool.not_eq_false, decide_eq_true_eq] at hc
        obtain ⟨hc1, hc2⟩ := hc
        have hst : prefixEq s t = true := by rw [prefixEq_symm]; exact hc1
        exact hnd ⟨t, List.mem_append_right _ (by simp), hst, hc2⟩
      · have hst2 : t = s := (show s = t by simpa using hst).symm
        subst hst2
        exact List.mem_append_right _ (by simp)

lemma LLInv_foldl :
    ∀ (rest P acc : List (List String)), LLInv P acc →
      LLInv (P ++ rest) (rest.foldl insertType acc) := by
  intro rest
  induction rest with
  | nil =>
    intro P acc h
    simpa using h
  | cons t rest ih =>
    intro P acc h
    have h2 := LLInv_insert P acc t h
    have h3 := ih (P ++ [t]) (insertType acc t) h2
    simp only [List.append_assoc, List.singleton_append] at h3
    simpa using h3

lemma mem_leave_longest (input : List (List String)) (t : List String) :
    t ∈ leave_longest_types input ↔ t ∈ input ∧ ¬ dominatedIn input t := by
  have h0 : LLInv [] [] := ⟨by simp, by simp⟩
  have h := LLInv_foldl input [] [] h0
  simp only [List.nil_append] at h
  obtain ⟨h1, h2⟩ := h
  constructor
  · intro ht
    exact h1 t ht
  · rintro ⟨ht, hnd⟩
    exact h2 t ht hnd

/-- C1: the reduction `leave_longest_types` (the classification step's
longest-wins pass) (1) never returns two paths with equal
first-`min(2, len)`-token prefixes and different lengths — in particular no
returned path is a strict extension of another returned path sharing that
prefix; (2) whenever two input paths share that prefix and differ in length,
the shorter one is dropped; and (3) a path no input path strictly extends
with that shared prefix is kept, so same-length prefix-sharing ties are both
kept. -/
theorem leave_longest_types_spec (input : List (List String)) :
    (∀ a ∈ leave_longest_types input, ∀ b ∈ leave_longest_types input,
      prefixEq a b = true → a.length = b.length) ∧
    (∀ a ∈ leave_longest_types input, ∀ b ∈ leave_longest_types input,
      List.IsPrefix a b → prefixEq a b = true → a = b) ∧
    (∀ s ∈ input, ∀ l ∈ input, prefixEq s l = true → s.length < l.length →
      s ∉ leave_longest_types input) ∧
    (∀ t ∈ input, (∀ u ∈ input, prefixEq t u = true → u.length ≤ t.length) →
      t ∈ leave_longest_types input) := by
  have hlen : ∀ a ∈ leave_longest_types input, ∀ b ∈ leave_longest_types input,
      prefixEq a b = true → a.length = b.length := by
    intro a ha b hb hpe
    rw [mem_leave_longest] at ha hb
    rcases Nat.lt_trichotomy a.length b.length with h | h | h
    · exact absurd ⟨b, hb.1, hpe, h⟩ ha.2
    · exact h
    · exact absurd ⟨a, ha.1, by rw [prefixEq_symm]; exact hpe, h⟩ hb.2
  refine ⟨hlen, fun a ha b hb hpre hpe => ?_, fun s hs l hl hpe hlt hmem => ?_,
    fun t ht hmax => ?_⟩
  · exact List.IsPrefix.eq_of_length hpre (hlen a ha b hb hpe)
  · rw [mem_leave_longest] at hmem
    exact hmem.2 ⟨l, hl, hpe, hlt⟩
  · rw [mem_leave_longest]
    refine ⟨ht, ?_⟩
    rintro ⟨u, hu, hpu, hlu⟩
    exact absurd (hmax u hu hpu) (by omega)

/-- Witness for C1 at a concrete input: the shorter prefix-sharing path is
dropped, the longer and the undominated same-length tie survivors are kept. -/
theorem leave_longest_types_spec_witness :
    ["a", "b"] ∉ leave_longest_types [["a", "b"], ["a", "b", "c"], ["a", "b", "d"]] ∧
    ["a", "b", "c"] ∈ leave_longest_types [["a", "b"], ["a", "b", "c"], ["a", "b", "d"]] ∧
    ["a", "b", "d"] ∈ leave_longest_types [["a", "b"], ["a", "b", "c"], ["a", "b", "d"]] :=
  ⟨(leave_longest_types_spec _).2.2.1 ["a", "b"] (by decide) ["a", "b", "c"] (by decide)
      (by decide) (by decide),
   (leave_longest_types_spec _).2.2.2 ["a", "b", "c"] (by decide) (by decide),
   (leave_longest_types_spec _).2.2.2 ["a", "b", "d"] (by decide) (by decide)⟩

/-! ## C8: parse_mapcss error behaviour -/

lemma except_foldlM_error {β α : Type} (g : β → α → Except String β) (x : α)
    (hx : ∀ acc, ∃ e, g acc x = .error e) :
    ∀ (l : List α), x ∈ l → ∀ acc, ∃ e, l.foldlM g acc = .error e := by
  intro l
  induction l with
  | nil => intro h; exact absurd h (List.not_mem_nil x)
  | cons y l ih =>
    intro hmem acc
    rw [List.foldlM_cons]
    rcases List.mem_cons.mp hmem with rfl | hxl
    · obtain ⟨e, he⟩ := hx acc
      rw [he]
      exact ⟨e, rfl⟩
    · cases hy : g acc y with
      | error e => exact ⟨e, rfl⟩
      | ok b =>
        obtain ⟨e, he⟩ := ih hxl b
        exact ⟨e, he⟩

lemma parseKvToken_error (kv : String) (h : 2 < (pySplitOnChar '=' kv).length) :
    ∀ rule, ∃ e, parseKvToken rule kv = .error e := by
  intro rule
  unfold parseKvToken
  match hs : pySplitOnChar '=' kv with
  | [] => rw [hs] at h; simp at h
  | [a] => rw [hs] at h; simp at h
  | [a, b] => rw [hs] at h; simp at h
  | a :: b :: c :: rest => exact ⟨_, rfl⟩

lemma parseSelector_error_bracket (type_tokens : List String) (selRaw : String)
    (h1 : pyStrip selRaw ≠ "")
    (h2 : ¬(strStartsWithChar (pyStrip selRaw) '[' = true ∧
      strEndsWithChar (pyStrip selRaw) ']' = true)) :
    ∃ e, parseSelector type_tokens selRaw = .error e := by
  unfold parseSelector
  rw [if_neg h1]
  have hb : (strStartsWithChar (pyStrip selRaw) '[' &&
      strEndsWithChar (pyStrip selRaw) ']') = false := by
    rw [Bool.and_eq_false_iff]
    by_contra hc
    simp only [not_or, Bool.not_eq_false] at hc
    exact h2 ⟨hc.1, hc.2⟩
  rw [hb]
  exact ⟨_, rfl⟩

lemma parseSelector_error_kv (type_tokens : List String) (selRaw : String)
    (h1 : pyStrip selRaw ≠ "")
    (h2 : strStartsWithChar (pyStrip selRaw) '[' = true)
    (h3 : strEndsWithChar (pyStrip selRaw) ']' = true)
    (h4 : ∃ kv ∈ innerParts (pyStrip selRaw), 2 < (pySplitOnChar '=' kv).length) :
    ∃ e, parseSelector type_tokens selRaw = .error e := by
  unfold parseSelector
  rw [if_neg h1]
  rw [h2, h3]
  simp only [Bool.and_self, Bool.not_true, Bool.false_eq_true, if_false]
  obtain ⟨kv, hkv, hlen⟩ := h4
  obtain ⟨e, he⟩ := except_foldlM_error parseKvToken kv
    (parseKvToken_error kv hlen) (innerParts (pyStrip selRaw)) hkv {}
  rw [he]
  exact ⟨e, rfl⟩

lemma process_full_error (type_string selectors_string : String)
    (h : ∃ sel ∈ pySplitOnChar ',' selectors_string,
      ∀ tt, ∃ e, parseSelector tt sel = .error e) :
    ∃ e, process_full type_string selectors_string = .error e := by
  unfold process_full
  by_cases he : type_string = "" || selectors_string = ""
  · rw [if_pos he]
    exact ⟨_, rfl⟩
  · rw [if_neg he]
    obtain ⟨sel, hmem, hsel⟩ := h
    apply except_foldlM_error _ sel _ _ hmem
    intro acc
    obtain ⟨e, hee⟩ := hsel (pySplitOnChar '|' type_string)
    rw [hee]
    exact ⟨e, rfl⟩

lemma exceptSeq_error_of_right {α : Type} (a b : Except String (List α)) (xs : List α)
    (ha : a = .ok xs) (hb : ∃ e, b = .error e) : ∃ e, exceptSeq a b = .error e := by
  obtain ⟨e, he⟩ := hb
  rw [exceptSeq, ha, he]
  exact ⟨e, rfl⟩

lemma parseLine_skip (line : String) (h : lineSkipped line) : parseLine line = .ok [] := by
  unfold parseLine
  rcases h with h | ⟨f0, rest, heq, hskip⟩
  · rw [h]
  · rw [heq]
    simp only
    have hcond : (pyStrip f0 = "" || strStartsWithChar (pyStrip f0) '#') = true := by
      rcases hskip with h1 | h1 <;> simp [h1]
    rw [hcond]
    simp

lemma parseLine_error_of_badFieldCount (line : String) (h : badFieldCountLine line) :
    ∃ e, parseLine line = .error e := by
  obtain ⟨⟨f0, rest, heq, hns⟩, h3, h7⟩ := h
  rw [heq] at h3 h7
  unfold parseLine
  rw [heq]
  simp only
  have hcond : (pyStrip f0 = "" || strStartsWithChar (pyStrip f0) '#') = false := by
    simp only [Bool.or_eq_false_iff]
    constructor
    · exact decide_eq_false (fun hh => hns (Or.inl hh))
    · exact Bool.eq_false_iff.mpr (fun hh => hns (Or.inr hh))
  rw [hcond]
  simp only [Bool.false_eq_true, if_false]
  rw [if_pos ⟨h3, h7⟩]
  exact ⟨_, rfl⟩

lemma parseLine_error_of_full (line : String) (hfull : fullRuleLine line)
    (hpf : ∃ e, process_full ((csvFields line).getD 0 "") ((csvFields line).getD 1 "")
      = .error e) :
    ∃ e, parseLine line = .error e := by
  obtain ⟨⟨f0, rest, heq, hns⟩, hlen, hx⟩ := hfull
  rw [heq] at hlen hx hpf
  unfold parseLine
  rw [heq]
  simp only
  have hcond : (pyStrip f0 = "" || strStartsWithChar (pyStrip f0) '#') = false := by
    simp only [Bool.or_eq_false_iff]
    constructor
    · exact decide_eq_false (fun hh => hns (Or.inl hh))
    · exact Bool.eq_false_iff.mpr (fun hh => hns (Or.inr hh))
  rw [hcond]
  simp only [Bool.false_eq_true, if_false]
  rw [if_neg (by rw [hlen]; simp)]
  rw [if_neg (by rw [hlen]; simp)]
  rw [if_pos ⟨hlen, hx⟩]
  exact exceptSeq_error_of_right _ _ [] rfl hpf

lemma parseLine_error_of_badSelector (line : String) (h : badSelectorLine line) :
    ∃ e, parseLine line = .error e := by
  obtain ⟨hfull, sel, hmem, hne, hbr⟩ := h
  apply parseLine_error_of_full line hfull
  apply process_full_error
  exact ⟨sel, hmem, fun tt => parseSelector_error_bracket tt sel hne hbr⟩

lemma parseLine_error_of_badTagToken (line : String) (h : badTagTokenLine line) :
    ∃ e, parseLine line = .error e := by
  obtain ⟨hfull, sel, hmem, hne, hs, hw, hkv⟩ := h
  apply parseLine_error_of_full line hfull
  apply process_full_error
  exact ⟨sel, hmem, fun tt => parseSelector_error_kv tt sel hne hs hw hkv⟩

lemma parse_mapcss_error_of_line (lines : List String) (line : String)
    (hmem : line ∈ lines) (herr : ∃ e, parseLine line = .error e) :
    ∃ e, parse_mapcss lines = .error e := by
  unfold parse_mapcss
  apply except_foldlM_error _ line _ lines hmem
  intro acc
  obtain ⟨e, he⟩ := herr
  rw [he]
  exact ⟨e, rfl⟩

lemma parse_mapcss_skip (line : String) (rest : List String) (h : lineSkipped line) :
    parse_mapcss (line :: rest) = parse_mapcss rest := by
  unfold parse_mapcss
  rw [List.foldlM_cons, parseLine_skip line h]
  rfl

/-- C8: `parse_mapcss` raises a format error whenever some input line is
non-blank and non-comment but has a field count other than 3 or 7; whenever
some full-rule line (7 fields, third field not "x") has a non-empty stripped
selector not enclosed in brackets; and whenever some bracket selector of a
full-rule line holds a tag token with more than one `=`.  Blank lines and
lines whose first field starts with `#` are skipped without error and without
effect on the result. -/
theorem parse_mapcss_error_spec :
    (∀ lines line, line ∈ lines → badFieldCountLine line →
      ∃ e, parse_mapcss lines = .error e) ∧
    (∀ lines line, line ∈ lines → badSelectorLine line →
      ∃ e, parse_mapcss lines = .error e) ∧
    (∀ lines line, line ∈ lines → badTagTokenLine line →
      ∃ e, parse_mapcss lines = .error e) ∧
    (∀ line rest, lineSkipped line → parse_mapcss (line :: rest) = parse_mapcss rest) :=
  ⟨fun lines line hm hb =>
      parse_mapcss_error_of_line lines line hm (parseLine_error_of_badFieldCount line hb),
   fun lines line hm hb =>
      parse_mapcss_error_of_line lines line hm (parseLine_error_of_badSelector line hb),
   fun lines line hm hb =>
      parse_mapcss_error_of_line lines line hm (parseLine_error_of_badTagToken line hb),
   fun line rest h => parse_mapcss_skip line rest h⟩

/-- Witness for C8 at concrete ruleset lines. -/
theorem parse_mapcss_error_spec_witness :
    (∃ e, parse_mapcss ["a;b"] = .error e) ∧
    (∃ e, parse_mapcss ["t|u;bad;1;a;b;c;d"] = .error e) ∧
    (∃ e, parse_mapcss ["t|u;[a=b=c];1;a;b;c;d"] = .error e) ∧
    parse_mapcss ["# note;x;y", "a|b;;"] = parse_mapcss ["a|b;;"] :=
  ⟨parse_mapcss_error_spec.1 ["a;b"] "a;b" (by decide)
      ⟨⟨"a", ["b"], rfl, by decide⟩, by decide, by decide⟩,
   parse_mapcss_error_spec.2.1 ["t|u;bad;1;a;b;c;d"] "t|u;bad;1;a;b;c;d" (by decide)
      ⟨⟨⟨"t|u", ["bad", "1", "a", "b", "c", "d"], rfl, by decide⟩, by decide, by decide⟩,
        "bad", by decide, by decide, by decide⟩,
   parse_mapcss_error_spec.2.2.1 ["t|u;[a=b=c];1;a;b;c;d"] "t|u;[a=b=c];1;a;b;c;d" (by decide)
      ⟨⟨⟨"t|u", ["[a=b=c]", "1", "a", "b", "c", "d"], rfl, by decide⟩, by decide, by decide⟩,
        "[a=b=c]", by decide, by decide, by decide, by decide,
        "a=b=c", by decide, by decide⟩,
   parse_mapcss_error_spec.2.2.2 "# note;x;y" ["a|b;;"]
      (Or.inr ⟨"# note", ["x", "y"], rfl, Or.inr (by decide)⟩)⟩
/-! ## C4: rank_matched_places -/

lemma mem_insertDesc (x z : RankedPlace) :
    ∀ (l : List RankedPlace), z ∈ insertDesc x l ↔ z = x ∨ z ∈ l := by
  intro l
  induction l with
  | nil => simp [insertDesc]
  | cons y ys ih =>
    unfold insertDesc
    by_cases h : x.final_score < y.final_score
    · rw [if_pos h]
      simp only [List.mem_cons, ih]
      tauto
    · rw [if_neg h]
      simp only [List.mem_cons]

lemma mem_sortDescFinal (z : RankedPlace) :
    ∀ (l : List RankedPlace), z ∈ sortDescFinal l ↔ z ∈ l := by
  intro l
  induction l with
  | nil => simp [sortDescFinal]
  | cons x xs ih =>
    unfold sortDescFinal
    rw [mem_insertDesc]
    simp [ih]

lemma pairwise_insertDesc (x : RankedPlace) :
    ∀ (l : List RankedPlace),
      l.Pairwise (fun a b => b.final_score ≤ a.final_score) →
      (insertDesc x l).Pairwise (fun a b => b.final_score ≤ a.final_score) := by
  intro l
  induction l with
  | nil => intro _; simp [insertDesc]
  | cons y ys ih =>
    intro hp
    rw [List.pairwise_cons] at hp
    obtain ⟨hy, hys⟩ := hp
    unfold insertDesc
    by_cases h : x.final_score < y.final_score
    · rw [if_pos h]
      rw [List.pairwise_cons]
      constructor
      · intro z hz
        rcases (mem_insertDesc x z ys).mp hz with rfl | hz
        · exact le_of_lt h
        · exact hy z hz
      · exact ih hys
    · rw [if_neg h]
      rw [List.pairwise_cons]
      constructor
      · intro z hz
        rcases List.mem_cons.mp hz with rfl | hz
        · exact le_of_not_lt h
        · exact le_trans (hy z hz) (le_of_not_lt h)
      · exact List.pairwise_cons.mpr ⟨hy, hys⟩

lemma pairwise_sortDescFinal :
    ∀ (l : List RankedPlace),
      (sortDescFinal l).Pairwise (fun a b => b.final_score ≤ a.final_score) := by
  intro l
  induction l with
  | nil => simp [sortDescFinal]
  | cons x xs ih => exact pairwise_insertDesc x (sortDescFinal xs) ih

lemma filter_insertDesc (x : RankedPlace) (s : ℚ) :
    ∀ (l : List RankedPlace),
      (insertDesc x l).filter (fun q => decide (q.final_score = s)) =
        (if x.final_score = s then [x] else []) ++
          l.filter (fun q => decide (q.final_score = s)) := by
  intro l
  induction l with
  | nil =>
    unfold insertDesc
    by_cases hx : x.final_score = s <;> simp [hx]
  | cons y ys ih =>
    unfold insertDesc
    by_cases h : x.final_score < y.final_score
    · rw [if_pos h]
      by_cases hy : y.final_score = s
      · have hx : ¬ x.final_score = s := by
          intro hh
          rw [hh] at h
          rw [hy] at h
          exact absurd h (lt_irrefl s)
        rw [List.filter_cons_of_pos (by simp [hy])]
        rw [ih]
        rw [if_neg hx]
        rw [List.filter_cons_of_pos (by simp [hy])]
        simp
      · rw [List.filter_cons_of_neg (by simp [hy])]
        rw [ih]
        rw [List.filter_cons_of_neg (by simp [hy])]
    · rw [if_neg h]
      by_cases hx : x.final_score = s
      · rw [List.filter_cons_of_pos (by simp [hx])]
        rw [if_pos hx]
        simp
      · rw [List.filter_cons_of_neg (by simp [hx])]
        rw [if_neg hx]
        simp

lemma filter_sortDescFinal (s : ℚ) :
    ∀ (l : List RankedPlace),
      (sortDescFinal l).filter (fun q => decide (q.final_score = s)) =
        l.filter (fun q => decide (q.final_score = s)) := by
  intro l
  induction l with
  | nil => rfl
  | cons x xs ih =>
    unfold sortDescFinal
    rw [filter_insertDesc]
    by_cases hx : x.final_score = s
    · rw [if_pos hx, ih, List.filter_cons_of_pos (by simp [hx])]
      rfl
    · rw [if_neg hx, ih, List.filter_cons_of_neg (by simp [hx])]
      rfl

lemma scorePlace_some (dist : ℚ → ℚ → ℚ → ℚ → ℚ) (nw dw tlat tlon : ℚ)
    (tname : String) (maxD : ℚ) (p : Place) (q : RankedPlace)
    (h : scorePlace dist nw dw tlat tlon tname maxD p = some q) :
    q.place = p ∧
      ∃ la lo, p.lat = some la ∧ p.lon = some lo ∧
        dist tlat tlon la lo ≤ maxD ∧
        q.distance_score = pyRound 3 (max 0 (1 - dist tlat tlon la lo / maxD)) ∧
        q.final_score = pyRound 3 (name_overlap_score tname p.name * nw +
          max 0 (1 - dist tlat tlon la lo / maxD) * dw) := by
  unfold scorePlace at h
  match hla : p.lat, hlo : p.lon with
  | some la, some lo =>
    rw [hla, hlo] at h
    simp only at h
    by_cases hd : maxD < dist tlat tlon la lo
    · rw [if_pos hd] at h
      exact absurd h (by simp)
    · rw [if_neg hd] at h
      simp only [Option.some_inj] at h
      subst h
      exact ⟨rfl, la, lo, rfl, rfl, le_of_not_lt hd, rfl, rfl⟩
  | some la, none => rw [hla, hlo] at h; exact absurd h (by simp)
  | none, some lo => rw [hla, hlo] at h; exact absurd h (by simp)
  | none, none => rw [hla, hlo] at h; exact absurd h (by simp)

lemma scorePlace_none_of_far (dist : ℚ → ℚ → ℚ → ℚ → ℚ) (nw dw tlat tlon : ℚ)
    (tname : String) (maxD : ℚ) (p : Place) (la lo : ℚ)
    (hla : p.lat = some la) (hlo : p.lon = some lo)
    (hfar : maxD < dist tlat tlon la lo) :
    scorePlace dist nw dw tlat tlon tname maxD p = none := by
  unfold scorePlace
  rw [hla, hlo]
  simp only
  rw [if_pos hfar]


lemma name_overlap_cafe_luna : name_overlap_score "Cafe Luna Xyz" "Luna Cafe" = 2 / 3 := by
  unfold name_overlap_score
  rw [show normalizeName "Cafe Luna Xyz" = {"cafe", "luna", "xyz"} from by decide]
  rw [show normalizeName "Luna Cafe" = {"luna", "cafe"} from by decide]
  rw [if_neg (by decide)]
  rw [show ({"cafe", "luna", "xyz"} ∩ {"luna", "cafe"} : Finset String).card = 2 from by decide]
  rw [show ({"cafe", "luna", "xyz"} ∪ {"luna", "cafe"} : Finset String).card = 3 from by decide]
  norm_num

/-- C4 counterexample: the returned `final_score` field is the weighted sum
ROUNDED to three decimal places, not the weighted sum itself.  With one
candidate at distance 0, name score 2/3 and default weights, the exact
weighted sum is 23/30 = 0.7666…, while the returned entry carries 0.767 (and
the claim's `distanceScore`/`nameScore` are likewise stored rounded). -/
theorem rank_final_score_is_rounded :
    rank_matched_places (fun _ _ _ _ => 0) (7 / 10) (3 / 10) 10
        [⟨1, "Luna Cafe", some 0, some 0⟩] 0 0 "Cafe Luna Xyz" (some 20) =
      [⟨⟨1, "Luna Cafe", some 0, some 0⟩, 0, 1, 667 / 1000, 767 / 1000⟩] ∧
    (767 / 1000 : ℚ) ≠
      name_overlap_score "Cafe Luna Xyz" "Luna Cafe" * (7 / 10) +
        max 0 ((1 : ℚ) - 0 / 20) * (3 / 10) := by
  have hmax : max (0 : ℚ) (1 - 0 / 20) = 1 := by norm_num
  have hpyA : pyRound 2 (0 : ℚ) = 0 := by
    unfold pyRound roundHalfEven
    norm_num
  have hpyB : pyRound 3 (1 : ℚ) = 1 := by
    unfold pyRound roundHalfEven
    norm_num
  have hpyC : pyRound 3 (2 / 3 : ℚ) = 667 / 1000 := by
    unfold pyRound roundHalfEven
    rw [show ⌊(2 / 3 : ℚ) * 10 ^ 3⌋ = 666 from by rw [Int.floor_eq_iff]; norm_num]
    norm_num
  have hpyD : pyRound 3 (23 / 30 : ℚ) = 767 / 1000 := by
    unfold pyRound roundHalfEven
    rw [show ⌊(23 / 30 : ℚ) * 10 ^ 3⌋ = 766 from by rw [Int.floor_eq_iff]; norm_num]
    norm_num
  have hsp : scorePlace (fun _ _ _ _ => 0) (7 / 10) (3 / 10) 0 0 "Cafe Luna Xyz" 20
      ⟨1, "Luna Cafe", some 0, some 0⟩ =
      some ⟨⟨1, "Luna Cafe", some 0, some 0⟩, 0, 1, 667 / 1000, 767 / 1000⟩ := by
    unfold scorePlace
    simp only
    rw [if_neg (by norm_num)]
    rw [name_overlap_cafe_luna, hmax]
    rw [show (2 / 3 : ℚ) * (7 / 10) + 1 * (3 / 10) = 23 / 30 from by norm_num]
    rw [hpyA, hpyB, hpyC, hpyD]
  constructor
  · unfold rank_matched_places
    rw [if_neg (by simp)]
    simp only [Option.getD_some]
    rw [List.filterMap_cons, hsp]
    simp [sortDescFinal, insertDesc, List.filterMap_nil]
  · rw [name_overlap_cafe_luna, hmax]
    norm_num

/-- C4 (amended): `rank_matched_places` (1) defaults `max_distance` to twice
the current search radius when unspecified; (2) drops every candidate whose
distance exceeds `max_distance`; (3) gives every returned entry the scores
`distanceScore = max(0, 1 - distance/maxDistance)` and
`finalScore = nameWeight*nameScore + distWeight*distanceScore`, each stored
rounded to three decimal places; (4) returns the list sorted with
`final_score` monotonically non-increasing; and (5) the sort is stable:
the entries of any given score appear in input order. -/
theorem rank_matched_places_spec (dist : ℚ → ℚ → ℚ → ℚ → ℚ)
    (nw dw range : ℚ) (places : List Place) (tlat tlon : ℚ) (tname : String)
    (maxD : ℚ) :
    (rank_matched_places dist nw dw range places tlat tlon tname none =
      rank_matched_places dist nw dw range places tlat tlon tname (some (range * 2))) ∧
    (∀ p ∈ places, ∀ la lo, p.lat = some la → p.lon = some lo →
      maxD < dist tlat tlon la lo →
      ∀ q ∈ rank_matched_places dist nw dw range places tlat tlon tname (some maxD),
        q.place ≠ p) ∧
    (∀ q ∈ rank_matched_places dist nw dw range places tlat tlon tname (some maxD),
      ∃ la lo, q.place.lat = some la ∧ q.place.lon = some lo ∧
        dist tlat tlon la lo ≤ maxD ∧
        q.distance_score = pyRound 3 (max 0 (1 - dist tlat tlon la lo / maxD)) ∧
        q.final_score = pyRound 3 (name_overlap_score tname q.place.name * nw +
          max 0 (1 - dist tlat tlon la lo / maxD) * dw)) ∧
    (rank_matched_places dist nw dw range places tlat tlon tname
        (some maxD)).Pairwise (fun a b => b.final_score ≤ a.final_score) ∧
    (∀ s : ℚ,
      (rank_matched_places dist nw dw range places tlat tlon tname
          (some maxD)).filter (fun q => decide (q.final_score = s)) =
        (places.filterMap
          (scorePlace dist nw dw tlat tlon tname maxD)).filter
            (fun q => decide (q.final_score = s))) := by
  refine ⟨rfl, fun p hp la lo hla hlo hfar q hq hqp => ?_, fun q hq => ?_, ?_, fun s => ?_⟩
  · unfold rank_matched_places at hq
    by_cases hpl : places = []
    · rw [if_pos hpl] at hq
      exact absurd hq (List.not_mem_nil q)
    · rw [if_neg hpl] at hq
      simp only [Option.getD_some] at hq
      rw [mem_sortDescFinal] at hq
      obtain ⟨p2, hp2, hsc⟩ := List.mem_filterMap.mp hq
      have hqp2 : q.place = p2 := (scorePlace_some _ _ _ _ _ _ _ _ _ hsc).1
      have hp2p : p2 = p := by rw [← hqp2, hqp]
      rw [hp2p] at hsc
      rw [scorePlace_none_of_far dist nw dw tlat tlon tname maxD p la lo hla hlo hfar] at hsc
      exact absurd hsc (by simp)
  · unfold rank_matched_places at hq
    by_cases hpl : places = []
    · rw [if_pos hpl] at hq
      exact absurd hq (List.not_mem_nil q)
    · rw [if_neg hpl] at hq
      simp only [Option.getD_some] at hq
      rw [mem_sortDescFinal] at hq
      obtain ⟨p2, hp2, hsc⟩ := List.mem_filterMap.mp hq
      obtain ⟨hqp2, la, lo, hla, hlo, hd, hds, hfs⟩ :=
        scorePlace_some _ _ _ _ _ _ _ _ _ hsc
      rw [hqp2]
      exact ⟨la, lo, hla, hlo, hd, hds, hfs⟩
  · unfold rank_matched_places
    by_cases hpl : places = []
    · rw [if_pos hpl]
      simp
    · rw [if_neg hpl]
      exact pairwise_sortDescFinal _
  · unfold rank_matched_places
    by_cases hpl : places = []
    · rw [if_pos hpl]
      subst hpl
      simp
    · rw [if_neg hpl]
      simp only [Option.getD_some]
      exact filter_sortDescFinal s _

/-- Witness for C4 (amended): a candidate 25 m away is dropped at
`max_distance = 20`, and the concrete ranking is sorted non-increasingly. -/
theorem rank_matched_places_spec_witness :
    (∀ q ∈ rank_matched_places (fun _ _ la _ => la) (7 / 10) (3 / 10) 10
        [⟨1, "b", some 25, some 0⟩, ⟨2, "c", some 5, some 0⟩] 0 0 "x" (some 20),
      q.place ≠ ⟨1, "b", some 25, some 0⟩) ∧
    (rank_matched_places (fun _ _ la _ => la) (7 / 10) (3 / 10) 10
        [⟨1, "b", some 25, some 0⟩, ⟨2, "c", some 5, some 0⟩] 0 0 "x"
        (some 20)).Pairwise (fun a b => b.final_score ≤ a.final_score) :=
  ⟨(rank_matched_places_spec (fun _ _ la _ => la) (7 / 10) (3 / 10) 10
      [⟨1, "b", some 25, some 0⟩, ⟨2, "c", some 5, some 0⟩] 0 0 "x" 20).2.1
      ⟨1, "b", some 25, some 0⟩ (by simp) 25 0 rfl rfl (by norm_num),
   (rank_matched_places_spec (fun _ _ la _ => la) (7 / 10) (3 / 10) 10
      [⟨1, "b", some 25, some 0⟩, ⟨2, "c", some 5, some 0⟩] 0 0 "x" 20).2.2.2.1⟩

/-! ## C9: the overwrite guard of process_places_to_kml -/

/-- C9 counterexample: with the output file present and overwrite disabled,
the run issues no effects — but the matcher state is NOT left untouched: the
`successful`/`skipped` counters are reset to zero at entry, before the guard
runs.  Here a state with counters 7/3 comes back with counters 0/0. -/
theorem process_overwrite_guard_not_state_preserving :
    (process_places_to_kml
      { inputExists := true, outputExists := true, jsonOk := true,
        isFeatureCollection := true, features := [], stopFlag := fun _ => false,
        candidates := fun _ _ => some [], userSel := fun _ => .other,
        dist := fun _ _ _ _ => 0 }
      MM_BEST none false ⟨10, 1, 0, 7, 3, 5, 0⟩ 5).2.1 ≠ ⟨10, 1, 0, 7, 3, 5, 0⟩ := by
  decide

/-- C9 (amended): if the output file exists and overwrite is disabled,
`process_places_to_kml` returns with an empty effect trace — no candidate
query, no interactive wait, no progress callback and no file write — and the
matcher state is unchanged except that `successful` and `skipped` are reset
to zero on entry. -/
theorem process_skips_when_output_exists (env : ProcEnv) (mm : String)
    (thr : Option ℚ) (ms0 : MatcherState) (fuel : ℕ)
    (h : env.outputExists = true) :
    (process_places_to_kml env mm thr false ms0 fuel).2.2 = [] ∧
    (process_places_to_kml env mm thr false ms0 fuel).2.1 =
      { ms0 with successful := 0, skipped := 0 } := by
  unfold process_places_to_kml
  by_cases hin : env.inputExists = false
  · rw [if_pos hin]
    exact ⟨rfl, rfl⟩
  · rw [if_neg hin, if_pos ⟨h, rfl⟩]
    exact ⟨rfl, rfl⟩

/-- Witness for C9 (amended) at a concrete environment and state. -/
theorem process_skips_when_output_exists_witness :
    (process_places_to_kml
      { inputExists := true, outputExists := true, jsonOk := true,
        isFeatureCollection := true, features := [], stopFlag := fun _ => false,
        candidates := fun _ _ => some [], userSel := fun _ => .other,
        dist := fun _ _ _ _ => 0 }
      MM_BEST none false ⟨10, 1, 0, 7, 3, 5, 0⟩ 5).2.2 = [] ∧
    (process_places_to_kml
      { inputExists := true, outputExists := true, jsonOk := true,
        isFeatureCollection := true, features := [], stopFlag := fun _ => false,
        candidates := fun _ _ => some [], userSel := fun _ => .other,
        dist := fun _ _ _ _ => 0 }
      MM_BEST none false ⟨10, 1, 0, 7, 3, 5, 0⟩ 5).2.1 = ⟨10, 1, 0, 0, 0, 5, 0⟩ :=
  process_skips_when_output_exists _ MM_BEST none ⟨10, 1, 0, 7, 3, 5, 0⟩ 5 rfl

/-! ## C7: serialization only after a full, uninterrupted pass -/

lemma handle_empty_no_write (env : ProcEnv) (ms : MatcherState) (idx : ℕ) (mm : String) :
    Effect.writeFile ∉ (handle_empty_osm_data env ms idx mm).2.2 := by
  unfold handle_empty_osm_data
  by_cases h : mm = MM_BEST
  · rw [if_pos h]
    simp
  · rw [if_neg h]
    simp only
    rcases hs : env.userSel ms.userCtr with s | n | _
    · rcases hr : set_radius_from_string ms.range s with e | ⟨b, r⟩
      · simp [hr]
      · cases b <;> simp [hr]
    · by_cases hn : n = -1 <;> simp [hn]
    · simp

lemma retrieve_no_write (env : ProcEnv) (ms : MatcherState) (idx : ℕ) :
    Effect.writeFile ∉ (retrieve_user_selection env ms idx).2.2 := by
  unfold retrieve_user_selection
  simp only
  rcases hs : env.userSel ms.userCtr with s | n | _
  · rcases hr : set_radius_from_string ms.range s with e | ⟨b, r⟩
    · simp [hr]
    · cases b <;> simp [hr]
  · by_cases hn : 0 ≤ n
    · simp [hn]
    · by_cases hn1 : n = -1 <;> simp [hn, hn1]
  · simp

lemma match_iteration_no_write (env : ProcEnv) (mm : String) (thr : Option ℚ)
    (ms : MatcherState) (idx : ℕ) (lat lon : ℚ) (name : String) :
    Effect.writeFile ∉ (match_iteration env mm thr ms idx lat lon name).2.2 := by
  have hhe := handle_empty_no_write env ms idx mm
  unfold match_iteration
  rcases hc : env.candidates idx ms.range with _ | ⟨_ | ⟨c, cs⟩⟩ <;> simp only [hc]
  · intro hmem
    rcases List.mem_append.mp hmem with h1 | h1
    · simp at h1
    · exact hhe h1
  · intro hmem
    rcases List.mem_append.mp hmem with h1 | h1
    · simp at h1
    · exact hhe h1
  · by_cases hb : mm = MM_BEST
    · rw [if_pos hb]
      rcases hranked : rank_matched_places env.dist ms.name_weight ms.dist_weight ms.range
          (c :: cs) lat lon name none with _ | ⟨best, rest⟩ <;> simp [hranked]
    · rw [if_neg hb]
      by_cases ht : mm = MM_THRESHOLD
      · rw [if_pos ht]
        rcases thr with _ | thrv
        · simp
        · rcases hranked : rank_matched_places env.dist ms.name_weight ms.dist_weight ms.range
              (c :: cs) lat lon name none with _ | ⟨best, rest⟩ <;> simp only [hranked]
          · simp
          · by_cases hth : thrv ≤ best.final_score
            · rw [if_pos hth]
              simp
            · rw [if_neg hth]
              rcases hr : retrieve_user_selection env ms idx with ⟨res, ms2, effs⟩
              have hrw : Effect.writeFile ∉ effs := by
                have h2 := retrieve_no_write env ms idx
                rw [hr] at h2
                exact h2
              have hmem0 : Effect.writeFile ∉ [Effect.query idx ms.range] ++ effs := by
                intro hmem
                rcases List.mem_append.mp hmem with h1 | h1
                · simp at h1
                · exact hrw h1
              rcases res with _ | n | _ | _ | _ <;> simp only
              · exact hmem0
              · by_cases hvn : n < (best :: rest).length
                · rw [if_pos hvn]
                  exact hmem0
                · rw [if_neg hvn]
                  exact hmem0
              · exact hmem0
              · exact hmem0
              · exact hmem0
      · rw [if_neg ht]
        by_cases ha : mm = MM_ALL
        · rw [if_pos ha]
          rcases hr : retrieve_user_selection env ms idx with ⟨res, ms2, effs⟩
          have hrw : Effect.writeFile ∉ effs := by
            have h2 := retrieve_no_write env ms idx
            rw [hr] at h2
            exact h2
          have hmem0 : Effect.writeFile ∉ [Effect.query idx ms.range] ++ effs := by
            intro hmem
            rcases List.mem_append.mp hmem with h1 | h1
            · simp at h1
            · exact hrw h1
          rcases res with _ | n | _ | _ | _ <;> simp only
          · exact hmem0
          · by_cases hvn : n < (rank_matched_places env.dist ms.name_weight
                ms.dist_weight ms.range (c :: cs) lat lon name none).length
            · rw [if_pos hvn]
              exact hmem0
            · rw [if_neg hvn]
              exact hmem0
          · exact hmem0
          · exact hmem0
          · exact hmem0
        · rw [if_neg ha]
          simp

lemma run_while_no_write (env : ProcEnv) (mm : String) (thr : Option ℚ)
    (idx : ℕ) (lat lon : ℚ) (name : String) :
    ∀ (fuel : ℕ) (ms : MatcherState),
      Effect.writeFile ∉ (run_while env mm thr idx lat lon name fuel ms).2 := by
  intro fuel
  induction fuel with
  | zero => intro ms; simp [run_while]
  | succ n ih =>
    intro ms
    have hmi := match_iteration_no_write env mm thr ms idx lat lon name
    unfold run_while
    rcases hx : (match_iteration env mm thr ms idx lat lon name).1 <;> simp only [hx]
    · intro hmem
      rcases List.mem_append.mp hmem with h1 | h1
      · exact hmi h1
      · exact ih _ h1
    · exact hmi
    · exact hmi
    · exact hmi

lemma process_feature_no_write (env : ProcEnv) (mm : String) (thr : Option ℚ)
    (ms : MatcherState) (idx : ℕ) (f : Feature) (fuel : ℕ) :
    Effect.writeFile ∉ (process_feature env mm thr ms idx f fuel).2 := by
  unfold process_feature
  by_cases hg : f.coords = [] ∨ f.isPoint = false
  · rw [if_pos hg]
    simp
  · rw [if_neg hg]
    rcases hco : f.coords with _ | ⟨a, _ | ⟨b, _ | ⟨c, rest⟩⟩⟩ <;> simp only
    · simp
    · simp
    · have hrw := run_while_no_write env mm thr idx b a f.name fuel ms
      rcases hx : (run_while env mm thr idx b a f.name fuel ms).1 <;> simp only [hx]
      · intro hmem
        rcases List.mem_append.mp hmem with h1 | h1
        · exact hrw h1
        · simp at h1
      · exact hrw
      · exact hrw
    · simp

lemma process_loop_no_write (env : ProcEnv) (mm : String) (thr : Option ℚ)
    (fuel : ℕ) :
    ∀ (feats : List Feature) (idx : ℕ) (ms : MatcherState),
      Effect.writeFile ∉ (process_loop env mm thr fuel feats idx ms).2.2 := by
  intro feats
  induction feats with
  | nil => intro idx ms; simp [process_loop]
  | cons f rest ih =>
    intro idx ms
    unfold process_loop
    by_cases hst : env.stopFlag idx = true
    · rw [if_pos hst]
      simp
    · rw [if_neg hst]
      simp only
      have hpf := process_feature_no_write env mm thr
        { ms with range := DEFAULT_RANGE } idx f fuel
      rcases hx : (process_feature env mm thr
          { ms with range := DEFAULT_RANGE } idx f fuel).1 <;> simp only [hx]
      · intro hmem
        rcases List.mem_append.mp hmem with h1 | h1
        · exact hpf h1
        · exact ih _ _ h1
      · exact hpf
      · exact hpf

lemma process_loop_finished_stops (env : ProcEnv) (mm : String) (thr : Option ℚ)
    (fuel : ℕ) :
    ∀ (feats : List Feature) (idx : ℕ) (ms : MatcherState),
      (process_loop env mm thr fuel feats idx ms).1 = .finished →
      ∀ k, idx ≤ k → k < idx + feats.length → env.stopFlag k = false := by
  intro feats
  induction feats with
  | nil =>
    intro idx ms _ k hk1 hk2
    simp at hk2
    omega
  | cons f rest ih =>
    intro idx ms hfin k hk1 hk2
    unfold process_loop at hfin
    by_cases hst : env.stopFlag idx = true
    · rw [if_pos hst] at hfin
      exact absurd hfin (by simp)
    · rw [if_neg hst] at hfin
      simp only at hfin
      by_cases hk : k = idx
      · rw [hk]
        exact Bool.not_eq_true _ ▸ hst
      · rcases hx : (process_feature env mm thr
            { ms with range := DEFAULT_RANGE } idx f fuel).1 with ms2 | ms2 | _ <;>
          rw [hx] at hfin <;> simp only at hfin
        · exact ih (idx + 1) ms2 hfin k (by omega) (by simp at hk2 ⊢; omega)
        · exact absurd hfin (by simp)
        · exact absurd hfin (by simp)

/-- C7: the output document is serialized only when the feature loop ran to
completion, and only when the cooperative stop flag read false at the check
heading every feature iteration — so a stop observed between feature
iterations, or an exit selection delivered when the interactive wait resumes
while stopping (the app-level callback returns the exit command in that
case, making the loop return `.exited`), leaves the run without a write
effect. -/
theorem process_writes_only_after_full_pass (env : ProcEnv) (mm : String)
    (thr : Option ℚ) (ow : Bool) (ms0 : MatcherState) (fuel : ℕ) :
    Effect.writeFile ∈ (process_places_to_kml env mm thr ow ms0 fuel).2.2 →
      (process_places_to_kml env mm thr ow ms0 fuel).1 = .finished ∧
      ∀ k < env.features.length, env.stopFlag k = false := by
  intro hmem
  unfold process_places_to_kml at hmem ⊢
  by_cases h1 : env.inputExists = false
  · rw [if_pos h1] at hmem
    simp at hmem
  · rw [if_neg h1] at hmem ⊢
    by_cases h2 : env.outputExists = true ∧ ow = false
    · rw [if_pos h2] at hmem
      simp at hmem
    · rw [if_neg h2] at hmem ⊢
      by_cases h3 : env.jsonOk = false
      · rw [if_pos h3] at hmem
        simp at hmem
      · rw [if_neg h3] at hmem ⊢
        by_cases h4 : env.isFeatureCollection = false
        · rw [if_pos h4] at hmem
          simp at hmem
        · rw [if_neg h4] at hmem ⊢
          simp only at hmem ⊢
          split at hmem
          · rename_i heq
            simp only [heq]
            refine ⟨trivial, fun k hk => ?_⟩
            have := process_loop_finished_stops env mm thr fuel env.features 0 _ heq k
              (Nat.zero_le k) (by omega)
            exact this
          · rename_i o heq
            exact absurd hmem (process_loop_no_write env mm thr fuel env.features 0 _)

/-- Witness for C7: a run over one feature with no stop request finishes and
carries the write effect (the hypothesis is discharged by evaluation). -/
theorem process_writes_only_after_full_pass_witness :
    (process_places_to_kml
      { inputExists := true, outputExists := false, jsonOk := true,
        isFeatureCollection := true, features := [⟨true, [1, 2], "x", ""⟩],
        stopFlag := fun _ => false, candidates := fun _ _ => some [],
        userSel := fun _ => .other, dist := fun _ _ _ _ => 0 }
      MM_BEST none true ⟨10, 1, 0, 0, 0, 0, 0⟩ 5).1 = ProcOutcome.finished :=
  (process_writes_only_after_full_pass _ MM_BEST none true ⟨10, 1, 0, 0, 0, 0, 0⟩ 5
    (by decide)).1

/-! ## C10: per-feature radius reset -/

lemma ask_update_aux (idx : ℕ) :
    ∀ e ∈ [Effect.ask idx, Effect.update], (∃ i, e = Effect.ask i) ∨ e = Effect.update := by
  intro e he
  rcases List.mem_cons.mp he with rfl | he
  · exact Or.inl ⟨idx, rfl⟩
  · simp only [List.mem_singleton] at he
    exact Or.inr he

lemma ask_aux (idx : ℕ) :
    ∀ e ∈ [Effect.ask idx], (∃ i, e = Effect.ask i) ∨ e = Effect.update := by
  intro e he
  simp only [List.mem_singleton] at he
  exact Or.inl ⟨idx, he⟩

lemma update_aux :
    ∀ e ∈ [Effect.update], (∃ i, e = Effect.ask i) ∨ e = Effect.update := by
  intro e he
  simp only [List.mem_singleton] at he
  exact Or.inr he

lemma handle_empty_effects (env : ProcEnv) (ms : MatcherState) (idx : ℕ) (mm : String) :
    ∀ e ∈ (handle_empty_osm_data env ms idx mm).2.2,
      (∃ i, e = Effect.ask i) ∨ e = Effect.update := by
  unfold handle_empty_osm_data
  by_cases h : mm = MM_BEST
  · rw [if_pos h]
    exact update_aux
  · rw [if_neg h]
    simp only
    rcases hs : env.userSel ms.userCtr with s | n | _
    · rcases hr : set_radius_from_string ms.range s with e2 | ⟨b, r⟩
      · simp only [hr]
        exact ask_aux idx
      · cases b <;> simp only [hr] <;> exact ask_aux idx
    · by_cases hn : n = -1
      · simp only [hn, if_true]
        exact ask_update_aux idx
      · simp only [if_neg hn]
        exact ask_update_aux idx
    · exact ask_update_aux idx

lemma retrieve_effects (env : ProcEnv) (ms : MatcherState) (idx : ℕ) :
    ∀ e ∈ (retrieve_user_selection env ms idx).2.2,
      (∃ i, e = Effect.ask i) ∨ e = Effect.update := by
  unfold retrieve_user_selection
  simp only
  rcases hs : env.userSel ms.userCtr with s | n | _
  · rcases hr : set_radius_from_string ms.range s with e2 | ⟨b, r⟩
    · simp only [hr]
      exact ask_aux idx
    · cases b <;> simp only [hr] <;> exact ask_aux idx
  · by_cases hn : 0 ≤ n
    · simp only [if_pos hn]
      exact ask_aux idx
    · simp only [if_neg hn]
      by_cases hn1 : n = -1
      · simp only [hn1, if_true]
        exact ask_update_aux idx
      · simp only [if_neg hn1]
        exact ask_update_aux idx
  · exact ask_update_aux idx

lemma match_iteration_shape (env : ProcEnv) (mm : String) (thr : Option ℚ)
    (ms : MatcherState) (idx : ℕ) (lat lon : ℚ) (name : String) :
    ∃ tail, (match_iteration env mm thr ms idx lat lon name).2.2 =
      Effect.query idx ms.range :: tail ∧
      ∀ e ∈ tail, (∃ i, e = Effect.ask i) ∨ e = Effect.update := by
  have hhe := handle_empty_effects env ms idx mm
  unfold match_iteration
  rcases hc : env.candidates idx ms.range with _ | ⟨_ | ⟨c, cs⟩⟩ <;> simp only [hc]
  · exact ⟨_, rfl, hhe⟩
  · exact ⟨_, rfl, hhe⟩
  · by_cases hb : mm = MM_BEST
    · rw [if_pos hb]
      rcases hranked : rank_matched_places env.dist ms.name_weight ms.dist_weight ms.range
          (c :: cs) lat lon name none with _ | ⟨best, rest⟩ <;> simp only [hranked]
      · exact ⟨[], rfl, by simp⟩
      · exact ⟨[], rfl, by simp⟩
    · rw [if_neg hb]
      by_cases ht : mm = MM_THRESHOLD
      · rw [if_pos ht]
        rcases thr with _ | thrv
        · exact ⟨_, rfl, update_aux⟩
        · rcases hranked : rank_matched_places env.dist ms.name_weight ms.dist_weight ms.range
              (c :: cs) lat lon name none with _ | ⟨best, rest⟩ <;> simp only [hranked]
          · exact ⟨[], rfl, by simp⟩
          · by_cases hth : thrv ≤ best.final_score
            · rw [if_pos hth]
              exact ⟨[], rfl, by simp⟩
            · rw [if_neg hth]
              rcases hr : retrieve_user_selection env ms idx with ⟨res, ms2, effs⟩
              have hre : ∀ e ∈ effs, (∃ i, e = Effect.ask i) ∨ e = Effect.update := by
                have h2 := retrieve_effects env ms idx
                rw [hr] at h2
                exact h2
              rcases res with _ | n | _ | _ | _ <;> simp only
              · exact ⟨effs, rfl, hre⟩
              · by_cases hvn : n < (best :: rest).length
                · rw [if_pos hvn]
                  exact ⟨effs, rfl, hre⟩
                · rw [if_neg hvn]
                  exact ⟨effs, rfl, hre⟩
              · exact ⟨effs, rfl, hre⟩
              · exact ⟨effs, rfl, hre⟩
              · exact ⟨effs, rfl, hre⟩
      · rw [if_neg ht]
        by_cases ha : mm = MM_ALL
        · rw [if_pos ha]
          rcases hr : retrieve_user_selection env ms idx with ⟨res, ms2, effs⟩
          have hre : ∀ e ∈ effs, (∃ i, e = Effect.ask i) ∨ e = Effect.update := by
            have h2 := retrieve_effects env ms idx
            rw [hr] at h2
            exact h2
          rcases res with _ | n | _ | _ | _ <;> simp only
          · exact ⟨effs, rfl, hre⟩
          · by_cases hvn : n < (rank_matched_places env.dist ms.name_weight
                ms.dist_weight ms.range (c :: cs) lat lon name none).length
            · rw [if_pos hvn]
              exact ⟨effs, rfl, hre⟩
            · rw [if_neg hvn]
              exact ⟨effs, rfl, hre⟩
          · exact ⟨effs, rfl, hre⟩
          · exact ⟨effs, rfl, hre⟩
          · exact ⟨effs, rfl, hre⟩
        · rw [if_neg ha]
          exact ⟨[], rfl, by simp⟩

lemma queryRanges_append (k : ℕ) (l1 l2 : List Effect) :
    queryRanges k (l1 ++ l2) = queryRanges k l1 ++ queryRanges k l2 := by
  unfold queryRanges
  rw [List.filterMap_append]

lemma queryRanges_cons_query (k idx : ℕ) (r : ℚ) (l : List Effect) :
    queryRanges k (Effect.query idx r :: l) =
      (if idx = k then [r] else []) ++ queryRanges k l := by
  unfold queryRanges
  rw [List.filterMap_cons]
  by_cases h : idx = k <;> simp [h]

lemma queryRanges_nil_of_shape (k : ℕ) :
    ∀ (l : List Effect), (∀ e ∈ l, (∃ i, e = Effect.ask i) ∨ e = Effect.update) →
      queryRanges k l = [] := by
  intro l
  induction l with
  | nil => intro _; rfl
  | cons e rest ih =>
    intro h
    have htail := ih (fun x hx => h x (List.mem_cons_of_mem e hx))
    rcases h e (List.mem_cons_self e rest) with ⟨i, rfl⟩ | rfl
    · unfold queryRanges at htail ⊢
      rw [List.filterMap_cons]
      exact htail
    · unfold queryRanges at htail ⊢
      rw [List.filterMap_cons]
      exact htail

lemma run_while_queries (env : ProcEnv) (mm : String) (thr : Option ℚ)
    (idx : ℕ) (lat lon : ℚ) (name : String) :
    ∀ (fuel : ℕ) (ms : MatcherState),
      (∀ k, k ≠ idx →
        queryRanges k (run_while env mm thr idx lat lon name fuel ms).2 = []) ∧
      ((queryRanges idx (run_while env mm thr idx lat lon name fuel ms).2).head? =
          some ms.range ∨
        queryRanges idx (run_while env mm thr idx lat lon name fuel ms).2 = []) := by
  intro fuel
  induction fuel with
  | zero =>
    intro ms
    exact ⟨fun k _ => rfl, Or.inr rfl⟩
  | succ n ih =>
    intro ms
    obtain ⟨tail, htail, hta⟩ := match_iteration_shape env mm thr ms idx lat lon name
    have htnil : ∀ k, queryRanges k tail = [] := fun k => queryRanges_nil_of_shape k tail hta
    unfold run_while
    rcases hx : (match_iteration env mm thr ms idx lat lon name).1 <;> simp only [hx]
    · constructor
      · intro k hk
        rw [queryRanges_append, htail, queryRanges_cons_query,
          if_neg (fun h => hk h.symm), htnil k,
          (ih (match_iteration env mm thr ms idx lat lon name).2.1).1 k hk]
        rfl
      · left
        rw [queryRanges_append, htail, queryRanges_cons_query, if_pos rfl]
        rfl
    · exact ⟨fun k hk => by
        rw [htail, queryRanges_cons_query, if_neg (fun h => hk h.symm), htnil k]; rfl,
        Or.inl (by rw [htail, queryRanges_cons_query, if_pos rfl]; rfl)⟩
    · exact ⟨fun k hk => by
        rw [htail, queryRanges_cons_query, if_neg (fun h => hk h.symm), htnil k]; rfl,
        Or.inl (by rw [htail, queryRanges_cons_query, if_pos rfl]; rfl)⟩
    · exact ⟨fun k hk => by
        rw [htail, queryRanges_cons_query, if_neg (fun h => hk h.symm), htnil k]; rfl,
        Or.inl (by rw [htail, queryRanges_cons_query, if_pos rfl]; rfl)⟩

lemma process_feature_queries (env : ProcEnv) (mm : String) (thr : Option ℚ)
    (ms : MatcherState) (idx : ℕ) (f : Feature) (fuel : ℕ) :
    (∀ k, k ≠ idx →
      queryRanges k (process_feature env mm thr ms idx f fuel).2 = []) ∧
    ((queryRanges idx (process_feature env mm thr ms idx f fuel).2).head? =
        some ms.range ∨
      queryRanges idx (process_feature env mm thr ms idx f fuel).2 = []) := by
  unfold process_feature
  by_cases hg : f.coords = [] ∨ f.isPoint = false
  · rw [if_pos hg]
    exact ⟨fun k _ => rfl, Or.inr rfl⟩
  · rw [if_neg hg]
    rcases hco : f.coords with _ | ⟨a, _ | ⟨b, _ | ⟨c, rest⟩⟩⟩ <;> simp only
    · exact ⟨fun k _ => rfl, Or.inr rfl⟩
    · exact ⟨fun k _ => rfl, Or.inr rfl⟩
    · have hrw := run_while_queries env mm thr idx b a f.name fuel ms
      have hupd : ∀ k, queryRanges k [Effect.update] = [] := fun k => rfl
      rcases hx : (run_while env mm thr idx b a f.name fuel ms).1 <;> simp only [hx]
      · constructor
        · intro k hk
          rw [queryRanges_append, hrw.1 k hk, hupd k]
          rfl
        · rcases hrw.2 with h | h
          · left
            rw [queryRanges_append, hupd idx, List.append_nil]
            exact h
          · right
            rw [queryRanges_append, hupd idx, List.append_nil]
            exact h
      · exact hrw
      · exact hrw
    · exact ⟨fun k _ => rfl, Or.inr rfl⟩

lemma process_loop_queries (env : ProcEnv) (mm : String) (thr : Option ℚ)
    (fuel : ℕ) :
    ∀ (feats : List Feature) (idx : ℕ) (ms : MatcherState) (k : ℕ),
      (k < idx → queryRanges k (process_loop env mm thr fuel feats idx ms).2.2 = []) ∧
      ((queryRanges k (process_loop env mm thr fuel feats idx ms).2.2).head? =
          some DEFAULT_RANGE ∨
        queryRanges k (process_loop env mm thr fuel feats idx ms).2.2 = []) := by
  intro feats
  induction feats with
  | nil =>
    intro idx ms k
    exact ⟨fun _ => rfl, Or.inr rfl⟩
  | cons f rest ih =>
    intro idx ms k
    unfold process_loop
    by_cases hst : env.stopFlag idx = true
    · rw [if_pos hst]
      exact ⟨fun _ => rfl, Or.inr rfl⟩
    · rw [if_neg hst]
      simp only
      have hpf := process_feature_queries env mm thr
        { ms with range := DEFAULT_RANGE } idx f fuel
      rcases hx : (process_feature env mm thr
          { ms with range := DEFAULT_RANGE } idx f fuel).1 with ms2 | ms2 | _ <;>
        simp only [hx]
      · constructor
        · intro hk
          rw [queryRanges_append, hpf.1 k (by omega), (ih (idx + 1) ms2 k).1 (by omega)]
          rfl
        · by_cases hk : k = idx
          · subst hk
            rw [queryRanges_append, (ih (k + 1) ms2 k).1 (by omega), List.append_nil]
            simpa using hpf.2
          · rw [queryRanges_append, hpf.1 k hk]
            simp only [List.nil_append]
            exact (ih (idx + 1) ms2 k).2
      · by_cases hk : k = idx
        · subst hk
          refine ⟨fun h => absurd h (lt_irrefl k), ?_⟩
          simpa using hpf.2
        · exact ⟨fun _ => hpf.1 k hk, Or.inr (hpf.1 k hk)⟩
      · by_cases hk : k = idx
        · subst hk
          refine ⟨fun h => absurd h (lt_irrefl k), ?_⟩
          simpa using hpf.2
        · exact ⟨fun _ => hpf.1 k hk, Or.inr (hpf.1 k hk)⟩

/-- C10: at the start of every feature iteration `self.range` is reset to
`DEFAULT_RANGE` (10 m) before the first candidate search for that feature:
the first candidate-source query issued for any feature is at radius 10, so
an interactive radius change made while resolving one feature never carries
over to the next. -/
theorem process_first_query_at_default_range (env : ProcEnv) (mm : String)
    (thr : Option ℚ) (ow : Bool) (ms0 : MatcherState) (fuel : ℕ) (k : ℕ) (r : ℚ)
    (h : (queryRanges k
        (process_places_to_kml env mm thr ow ms0 fuel).2.2).head? = some r) :
    r = DEFAULT_RANGE := by
  unfold process_places_to_kml at h
  by_cases h1 : env.inputExists = false
  · rw [if_pos h1] at h
    exact absurd h (by simp [queryRanges])
  · rw [if_neg h1] at h
    by_cases h2 : env.outputExists = true ∧ ow = false
    · rw [if_pos h2] at h
      exact absurd h (by simp [queryRanges])
    · rw [if_neg h2] at h
      by_cases h3 : env.jsonOk = false
      · rw [if_pos h3] at h
        exact absurd h (by simp [queryRanges])
      · rw [if_neg h3] at h
        by_cases h4 : env.isFeatureCollection = false
        · rw [if_pos h4] at h
          exact absurd h (by simp [queryRanges])
        · rw [if_neg h4] at h
          simp only at h
          split at h
          · rename_i heq
            rw [queryRanges_append] at h
            rw [show queryRanges k [Effect.writeFile, Effect.update] = [] from rfl,
              List.append_nil] at h
            rcases (process_loop_queries env mm thr fuel env.features 0 _ k).2 with hh | hh
            · rw [hh] at h
              simp at h
              exact h.symm
            · rw [hh] at h
              exact absurd h (by simp)
          · rcases (process_loop_queries env mm thr fuel env.features 0 _ k).2 with hh | hh
            · rw [hh] at h
              simp at h
              exact h.symm
            · rw [hh] at h
              exact absurd h (by simp)

/-- Witness for C10: with two features and an interactive zoom-out during the
first feature, the radius of the first query is nevertheless 10. -/
theorem process_first_query_at_default_range_witness :
    (10 : ℚ) = DEFAULT_RANGE :=
  process_first_query_at_default_range
    { inputExists := true, outputExists := false, jsonOk := true,
      isFeatureCollection := true,
      features := [⟨true, [1, 2], "x", ""⟩, ⟨true, [3, 4], "y", ""⟩],
      stopFlag := fun _ => false, candidates := fun _ _ => some [],
      userSel := fun n => if n = 0 then .str ZOOM_OUT else .other,
      dist := fun _ _ _ _ => 0 }
    MM_ALL none true ⟨10, 1, 0, 0, 0, 0, 0⟩ 5 1 10 (by decide)

end GeoPro
